import Mathlib

/-!
Shallow embedding of the Othello engine of this repository (src/main.py and
src/main1.py; the `OthelloGame` rules engine is duplicated verbatim in the two
files, so a single embedding covers both).

Modelling conventions:
* the 64-cell Python list `board` is a function `Int → Int`; every access the
  source performs is guarded in bounds (0..63), so only those indices matter;
* `is_valid_move` guards the index range explicitly: the Python code would
  raise IndexError (or wrap a negative index) outside 0..63, and every call
  site in the source passes an in-range index; all theorems below use
  in-range indices;
* Python `while` walks along a board ray are modelled with fuel 8: a ray
  starting inside the 8x8 board leaves it after at most 7 steps, so fuel 8 is
  never exhausted on the positions the source actually visits;
* `float('inf')` appears only in the NegaScout window bounds; every evaluation
  of a position is bounded by 64 in absolute value, so the sentinel
  `INF = 2^30` behaves exactly like infinity there (see the comments at
  `negascout`).
-/

namespace Osero

/-- Row/column pair inside the 8x8 board, the `0 <= nx < 8 and 0 <= ny < 8`
test of the source. -/
abbrev inb (nx ny : Int) : Prop := 0 ≤ nx ∧ nx < 8 ∧ 0 ≤ ny ∧ ny < 8

/-- State of `OthelloGame` (src/main.py lines 112-117): 1 is black, -1 white,
0 empty. -/
structure OthelloGame where
  board : Int → Int
  current_player : Int
  last_move : Option Int
  turns_passed : Nat

/-- Indices 0..63 of the 64 board cells, the `range(64)` of the source. -/
def boardIdx : List Int := (List.range 64).map Int.ofNat

/-- Board produced by `initialize_board` (src/main.py lines 119-124). -/
def init_board : Int → Int := fun i =>
  if i = 27 ∨ i = 36 then -1 else if i = 28 ∨ i = 35 then 1 else 0

/-- Freshly constructed `OthelloGame()` (src/main.py lines 113-117). -/
def initGame : OthelloGame := ⟨init_board, 1, none, 0⟩

/-- Loop body of `can_flip` (src/main.py lines 146-165): walk from `(nx, ny)`
in direction `(dx, dy)`; `flipped` records whether an opponent disc was seen.
Fuel 8 covers every walk that starts inside the board. -/
def can_flip_aux (b : Int → Int) (p dx dy : Int) : Nat → Int → Int → Bool → Bool
  | 0, _, _, _ => false
  | fuel + 1, nx, ny, flipped =>
    if inb nx ny then
      let c := b (nx * 8 + ny)
      if c = -p then can_flip_aux b p dx dy fuel (nx + dx) (ny + dy) true
      else if c = p then flipped
      else false
    else false

/-- Predicate `can_flip(x, y, dx, dy)` of the source. -/
def can_flip (g : OthelloGame) (x y dx dy : Int) : Bool :=
  can_flip_aux g.board g.current_player dx dy 8 (x + dx) (y + dy) false

/-- Direction list of `is_valid_move` (src/main.py line 140). -/
def validDirs : List (Int × Int) :=
  [(-1, -1), (-1, 0), (-1, 1), (0, -1), (0, 1), (1, -1), (1, 0), (1, 1)]

/-- Predicate `is_valid_move(index)` (src/main.py lines 134-144); the explicit
range guard stands for Python's in-range list indexing (see the header). -/
def is_valid_move (g : OthelloGame) (index : Int) : Bool :=
  if 0 ≤ index ∧ index < 64 then
    if g.board index ≠ 0 then false
    else validDirs.any (fun d => can_flip g (index / 8) (index % 8) d.1 d.2)
  else false

/-- List `get_valid_moves()` (src/main.py lines 126-132): indices 0..63 in
ascending order that pass `is_valid_move`. -/
def get_valid_moves (g : OthelloGame) : List Int :=
  boardIdx.filter (fun i => is_valid_move g i)

/-- Direction list of `flip_discs` (src/main.py line 169). -/
def flipDirs : List (Int × Int) :=
  [(-1, 0), (1, 0), (0, -1), (0, 1), (-1, -1), (-1, 1), (1, -1), (1, 1)]

/-- Inner while loop of `flip_discs` for one direction (src/main.py lines
179-191): `acc` is the `flipped` list of discs seen so far in the ray; an
empty cell or the board edge discards it, an own disc commits it. -/
def flip_ray (b : Int → Int) (p dx dy : Int) : Nat → Int → Int → List Int → List Int
  | 0, _, _, _ => []
  | fuel + 1, nx, ny, acc =>
    if inb nx ny then
      let i := nx * 8 + ny
      if b i = 0 then []
      else if b i = p then acc
      else flip_ray b p dx dy fuel (nx + dx) (ny + dy) (acc ++ [i])
    else []

/-- List `flip_discs(move, player)` (src/main.py lines 167-192): concatenation
of the committed rays over the eight directions. -/
def flip_discs (g : OthelloGame) (move p : Int) : List Int :=
  (flipDirs.map (fun d =>
    flip_ray g.board p d.1 d.2 8 (move / 8 + d.1) (move % 8 + d.2) [])).flatten

/-- Method `pass_turn()` (src/main.py lines 194-198): bump the pass counter and
switch the player (the print is presentation only). -/
def pass_turn (g : OthelloGame) : OthelloGame :=
  ⟨g.board, -g.current_player, g.last_move, g.turns_passed + 1⟩

/-- Method `apply_move(move)` (src/main.py lines 200-212).  A valid move writes
the mover's disc, records `last_move`, computes `flip_discs` on the already
updated board (exactly as the source does: the move cell is written before
`flip_discs` runs), flips those discs, switches the player and resets
`turns_passed`.  An absent or invalid move leaves the state unchanged; the
source then only prints a diagnostic (see `apply_move_prints_invalid`). -/
def apply_move (g : OthelloGame) (move : Option Int) : OthelloGame :=
  match move with
  | none => g
  | some m =>
    if is_valid_move g m then
      let b1 := Function.update g.board m g.current_player
      let g1 : OthelloGame := ⟨b1, g.current_player, some m, g.turns_passed⟩
      let flips := flip_discs g1 m g.current_player
      ⟨flips.foldl (fun b j => Function.update b j g.current_player) b1,
       -g.current_player, some m, 0⟩
    else g

/-- Whether `apply_move` takes its `else` branch, i.e. executes
`print(f"Invalid move detected: {move}")` (src/main.py line 212).  This is the
only reporting the source performs: the Python function returns `None` on both
branches, so the caller receives no error value. -/
def apply_move_prints_invalid (g : OthelloGame) (move : Option Int) : Bool :=
  match move with
  | none => true
  | some m => ¬ is_valid_move g m

/-- Method `clone()` (src/main.py lines 214-219): a fresh `OthelloGame()` is
built (so `last_move = None`, `turns_passed = 0`), then `board` (copied) and
`current_player` are taken from the original. -/
def clone (g : OthelloGame) : OthelloGame := ⟨g.board, g.current_player, none, 0⟩

/-- Method `is_game_over()` (src/main.py lines 221-226), exactly as written:
a full board is terminal iff there is no valid move; otherwise a pass streak
of 2 or more returns False; otherwise terminal iff there is no valid move. -/
def is_game_over (g : OthelloGame) : Bool :=
  if boardIdx.all (fun i => g.board i ≠ 0) then
    (get_valid_moves g).isEmpty
  else if 2 ≤ g.turns_passed then false
  else (get_valid_moves g).isEmpty

/-- Evaluation `sum(state.board)` (src/main1.py line 57), also the score used
by `get_winner`. -/
def evaluate (g : OthelloGame) : Int :=
  (boardIdx.map (fun j => g.board j)).sum

/-- Method `get_winner()` (src/main.py lines 228-231). -/
def get_winner (g : OthelloGame) : Int :=
  if 0 < evaluate g then 1 else if evaluate g < 0 then -1 else 0

/-- Nine-ply game e6 f4 e3 f6 g5 d6 e7 f5 c5 (indices row*8+col), a legal line
from the opening in which Black captures every White disc. -/
def wipeSeq : List Int := [44, 29, 20, 45, 38, 43, 52, 37, 34]

/-- State reached by playing `wipeSeq` from the initial position: 13 black
discs, no white discs, White to move, and neither side has a legal move. -/
def afterWipe : OthelloGame := wipeSeq.foldl (fun g m => apply_move g (some m)) initGame

/-- State after the two forced passes from `afterWipe` (exactly what the
driver loop does when `get_valid_moves` is empty): `turns_passed = 2` and
still no legal move for either side. -/
def wipedPassed : OthelloGame := pass_turn (pass_turn afterWipe)

/-- Data-model invariant: each cell holds one of the two player markers or is
empty, and the player to move is one of the two players. -/
def WellFormed (g : OthelloGame) : Prop :=
  (∀ i ∈ Finset.Icc (0 : Int) 63, g.board i = -1 ∨ g.board i = 0 ∨ g.board i = 1) ∧
  (g.current_player = 1 ∨ g.current_player = -1)

instance : DecidablePred WellFormed := fun g => by unfold WellFormed; infer_instance

/-- Number of discs of player `p` on the board. -/
def discCount (g : OthelloGame) (p : Int) : Nat :=
  ((Finset.Icc (0 : Int) 63).filter (fun j => g.board j = p)).card

/-- Sentinel standing for `float('inf')` in the NegaScout windows
(src/main1.py line 20).  Every position evaluation is bounded by 64 in
absolute value, so any value larger than every reachable score behaves
exactly like infinity; the root equivalence theorem shows the returned move
and score for this window equal the exhaustive search's. -/
def INF : Int := 1073741824

mutual

/-- Method `Negascout.negascout(node, depth, alpha, beta, color)` (src/main1.py
lines 23-53).  The returned pair carries the score (the Python return value)
and the node's final `best_move` (read by `search` at the root; the depth-0,
terminal and no-move branches leave it `None`, and in the no-move branch the
recursive call runs on the same move-less node, so its `best_move` is never
written). -/
def negascout : OthelloGame → Nat → Int → Int → Int → Int × Option Int
  | g, 0, _, _, color => (color * evaluate g, none)
  | g, depth + 1, alpha, beta, color =>
    if is_game_over g then (color * evaluate g, none)
    else
      match get_valid_moves g with
      | [] => (-(negascout g depth (-beta) (-alpha) (-color)).1, none)
      | m :: ms => ns_fold depth beta color g (m :: ms) true (-INF) alpha none
  termination_by _g depth _alpha _beta _color => (depth, 0)

/-- Score `current_score` computed for one move of the loop (src/main1.py
lines 33-43): the child state is `node.state.clone()` with the move applied
(the source binds it once as `new_state`; it is pure, so the repeated
expression below denotes the same state); the first move gets a full-window
search, later moves a null-window search re-searched when the result lands
strictly inside `(alpha, beta)`. -/
def ns_cs : Nat → Int → Int → OthelloGame → Int → Bool → Int → Int
  | depth, beta, color, g, m, first, alpha =>
    if first then
      -(negascout (apply_move (clone g) (some m)) depth (-beta) (-alpha) (-color)).1
    else
      if alpha < -(negascout (apply_move (clone g) (some m)) depth
            (-alpha - 1) (-alpha) (-color)).1 ∧
          -(negascout (apply_move (clone g) (some m)) depth
            (-alpha - 1) (-alpha) (-color)).1 < beta then
        -(negascout (apply_move (clone g) (some m)) depth (-beta)
          (-(-(negascout (apply_move (clone g) (some m)) depth
            (-alpha - 1) (-alpha) (-color)).1)) (-color)).1
      else
        -(negascout (apply_move (clone g) (some m)) depth (-alpha - 1) (-alpha) (-color)).1
  termination_by depth _beta _color _g _m _first _alpha => (depth, 1)

/-- For-loop of `negascout` over the valid moves (src/main1.py lines 31-52):
`score` starts at `-inf`, each move's `current_score` comes from `ns_cs`; the
running best score, `best_move` and `alpha` are updated, and `alpha >= beta`
breaks out of the loop. -/
def ns_fold : Nat → Int → Int → OthelloGame → List Int → Bool → Int → Int → Option Int →
    Int × Option Int
  | _, _, _, _, [], _, score, _, best => (score, best)
  | depth, beta, color, g, m :: rest, first, score, alpha, best =>
    if beta ≤ max alpha (if ns_cs depth beta color g m first alpha > score
        then ns_cs depth beta color g m first alpha else score) then
      ((if ns_cs depth beta color g m first alpha > score
          then ns_cs depth beta color g m first alpha else score),
        (if ns_cs depth beta color g m first alpha > score then some m else best))
    else
      ns_fold depth beta color g rest false
        (if ns_cs depth beta color g m first alpha > score
          then ns_cs depth beta color g m first alpha else score)
        (max alpha (if ns_cs depth beta color g m first alpha > score
          then ns_cs depth beta color g m first alpha else score))
        (if ns_cs depth beta color g m first alpha > score then some m else best)
  termination_by depth _beta _color _g l _first _score _alpha _best => (depth, l.length + 2)

end

/-- Method `Negascout.search(root_state)` (src/main1.py lines 18-21): run the
root search with the full window and report the root's `best_move`. -/
def ns_search (g : OthelloGame) (depth_limit : Nat) : Option Int :=
  (negascout g depth_limit (-INF) INF 1).2

/-- Exhaustive (non-pruned) fixed-depth negamax over the same move generator,
terminal test, child construction and evaluator: the reference the spec
demands NegaScout agree with. -/
def negamax : OthelloGame → Nat → Int → Int
  | g, 0, color => color * evaluate g
  | g, depth + 1, color =>
    if is_game_over g then color * evaluate g
    else
      match get_valid_moves g with
      | [] => -(negamax g depth (-color))
      | m :: ms =>
        ((m :: ms).map
          (fun mv => -(negamax (apply_move (clone g) (some mv)) depth (-color)))).foldl
          max (-INF)

/-- Value a child move receives in the exhaustive search: the negated
`negamax` score of the state obtained by cloning and applying the move. -/
def nm_val (d : Nat) (c : Int) (g : OthelloGame) (m : Int) : Int :=
  -(negamax (apply_move (clone g) (some m)) d (-c))

/-- Root of the exhaustive search: the score of `negamax` together with the
first move (in ascending order) strictly improving the running maximum — the
move an unpruned search returns. -/
def negamax_root (g : OthelloGame) : Nat → Int × Option Int
  | 0 => (evaluate g, none)
  | depth + 1 =>
    if is_game_over g then (evaluate g, none)
    else
      match get_valid_moves g with
      | [] => (-(negamax g depth (-1)), none)
      | m :: ms =>
        (m :: ms).foldl
          (fun acc mv =>
            let v := -(negamax (apply_move (clone g) (some mv)) depth (-1))
            if v > acc.1 then (v, some mv) else acc)
          (-INF, none)

/-- Node of the MCTS statistics tree (`MCTSNode`, src/main.py lines 4-14):
state, visit and win counters, the untried moves, and the ordered children.
The Python parent back-pointer exists only for backpropagation; here
backpropagation happens on the way back up the recursion of `mctsIterate`,
which visits exactly the selection path. -/
inductive MCTree where
  | mk (state : OthelloGame) (visits : Int) (wins : Int)
      (untried : List Int) (children : List MCTree)

def MCTree.state : MCTree → OthelloGame
  | .mk st _ _ _ _ => st

def MCTree.visits : MCTree → Int
  | .mk _ v _ _ _ => v

def MCTree.wins : MCTree → Int
  | .mk _ _ w _ _ => w

def MCTree.untried : MCTree → List Int
  | .mk _ _ _ u _ => u

def MCTree.children : MCTree → List MCTree
  | .mk _ _ _ _ ch => ch

/-- Fresh `MCTSNode(state)` (src/main.py lines 5-14): zero statistics,
`untried_moves = state.get_valid_moves()`, no children. -/
def freshNode (g : OthelloGame) : MCTree := .mk g 0 0 (get_valid_moves g) []

/-- Total of the `visits` counters over a list of nodes. -/
def sumVisits (l : List MCTree) : Int := (l.map MCTree.visits).sum

/-- One iteration of `MCTS.search` (src/main.py lines 71-75).  Selection
(`select_node`, lines 79-85) descends while the node is non-terminal and
fully expanded, into the child chosen by `sel` from the parent visit count
and the children (the source takes the argmax of the UCB1 value, computed
with a floating-point square root; all theorems below quantify over every
selection function, covering whatever child that computation picks, and the
index is reduced modulo the list length).  A non-terminal node with untried
moves pops the last untried move (`expand`, lines 28-39, `list.pop()`),
builds the child by clone-and-apply, simulates from it (`sim` abstracts the
random playout `simulate`; its faithful model is `simulateAux` below), and
backpropagation (lines 41-46) adds one visit at every node of the path and
the result with alternating sign.  The value `none` models the exception the
source raises when a non-terminal fully-expanded node has no children:
`best_child` returns `None` (line 24) and the selection loop dereferences
`None.state`. -/
def mctsIterate (sel : Int → List MCTree → Nat) (sim : OthelloGame → Int) :
    MCTree → Option (MCTree × Int)
  | .mk st v w u ch =>
    if is_game_over st then
      some (.mk st (v + 1) (w + sim st) u ch, sim st)
    else if hu : u = [] then
      if hch : ch.isEmpty = true then none
      else
        match mctsIterate sel sim (ch.get ⟨sel v ch % ch.length,
            Nat.mod_lt _ (List.length_pos.mpr (fun h => hch (by rw [h]; rfl)))⟩) with
        | none => none
        | some (c', r) => some (.mk st (v + 1) (w - r) u (ch.set (sel v ch % ch.length) c'), -r)
    else
      some (.mk st (v + 1) (w - sim (apply_move (clone st) (some (u.getLast hu))))
          u.dropLast
          (ch ++ [.mk (apply_move (clone st) (some (u.getLast hu))) 1
            (sim (apply_move (clone st) (some (u.getLast hu))))
            (get_valid_moves (apply_move (clone st) (some (u.getLast hu)))) []]),
        -(sim (apply_move (clone st) (some (u.getLast hu)))))
  termination_by t => sizeOf t
  decreasing_by
    rename_i v2 w2 u2 ch2 hterm
    simp_wf
    have hlen : ch2.length ≠ 0 := fun h =>
      hch (by rw [List.length_eq_zero.mp h]; rfl)
    have hlt : sel v2 ch2 % ch2.length < ch2.length :=
      Nat.mod_lt _ (Nat.pos_of_ne_zero hlen)
    have hmem : ch2[sel v2 ch2 % ch2.length] ∈ ch2 := List.getElem_mem hlt
    have := List.sizeOf_lt_of_mem hmem
    omega

/-- Iteration loop of `MCTS.search` (src/main.py lines 67-75) with no time
limit: run `n` iterations; each draws its own selection and simulation
functions from the streams (`random.choice` draws differ per call, so the
streams are indexed by the remaining iteration count).  A `none` (a raised
exception in the source) aborts the whole search. -/
def mctsRun (sels : Nat → Int → List MCTree → Nat) (sims : Nat → OthelloGame → Int) :
    Nat → MCTree → Option MCTree
  | 0, t => some t
  | n + 1, t =>
    match mctsIterate (sels n) (sims n) t with
    | none => none
    | some (t', _) => mctsRun sels sims n t'

/-- Comparison `child.get_value(0) > best.get_value(0)` used by the final
`best_child(exploration_weight=0)` (src/main.py lines 20-26, 48-54): with
weight 0 the value is `wins / visits`, and an unvisited node has value plus
infinity (so it beats every visited node and ties with another unvisited
one).  The rational comparison is written by cross multiplication, exact for
the nonnegative visit counts the search produces. -/
def final_key_gt (c best : MCTree) : Bool :=
  if c.visits = 0 then
    if best.visits = 0 then false else true
  else
    if best.visits = 0 then false
    else best.wins * c.visits < c.wins * best.visits

/-- Method `best_child` at `exploration_weight = 0` (src/main.py lines
20-26): `None` when there are no children (after printing a warning),
otherwise the first child attaining the maximal value, exactly as Python's
`max` keeps the first occurrence of the maximum. -/
def best_child_final : List MCTree → Option MCTree
  | [] => none
  | c :: cs => some (cs.foldl (fun best c' => if final_key_gt c' best then c' else best) c)

/-- Method `MCTS.search(root_state)` (src/main.py lines 62-77): build the
root node, run the iterations, then return
`best_child(exploration_weight=0).state.last_move`.  The result `none`
models the AttributeError the source raises on that line when `best_child`
returns `None` because no children were ever expanded — the source
dereferences the absent best child instead of reporting a search-exhausted
condition — or a crash during the iterations. -/
def mctsSearch (sels : Nat → Int → List MCTree → Nat) (sims : Nat → OthelloGame → Int)
    (n : Nat) (g : OthelloGame) : Option (Option Int) :=
  match mctsRun sels sims n (freshNode g) with
  | none => none
  | some t =>
    match best_child_final t.children with
    | none => none
    | some c => some c.state.last_move

/-- Well-formedness of an MCTS tree: every non-terminal node keeps at least
one untried move or child (the total is the legal-move count of its state at
creation, which expansion preserves), exactly what rules out the
`best_child`-on-no-children crash during selection. -/
inductive GoodTree : MCTree → Prop
  | mk {st : OthelloGame} {v w : Int} {u : List Int} {ch : List MCTree} :
      (is_game_over st = false → u ≠ [] ∨ ch ≠ []) →
      (∀ c ∈ ch, GoodTree c) → GoodTree (.mk st v w u ch)

/-- Loop of `MCTS.simulate` (src/main.py lines 87-95): while the state is not
terminal, draw a random legal move (`random.choice`, modelled by the draw
stream `choose` reduced modulo the number of moves) and apply it; with no
legal move the loop body does nothing and the condition is re-checked (the
source never passes; on every state this loop actually reaches, a moveless
state is terminal because `clone` resets `turns_passed` to 0).  The fuel
argument bounds the loop — every applied move fills at least one empty cell,
so 65 steps reach a terminal state from any start; `none` stands for a loop
that is still running when the fuel ends, and the termination theorem shows
it is never returned. -/
def simulateAux (choose : Nat → Nat) : Nat → Nat → OthelloGame → Option OthelloGame
  | 0, _, _ => none
  | fuel + 1, k, g =>
    if is_game_over g then some g
    else
      match get_valid_moves g with
      | [] => simulateAux choose fuel (k + 1) g
      | m :: ms =>
        simulateAux choose fuel (k + 1)
          (apply_move g (some ((m :: ms).get
            ⟨choose k % (m :: ms).length, Nat.mod_lt _ (Nat.succ_pos ms.length)⟩)))

/-- Method `MCTS.simulate(state)` (src/main.py lines 87-95): clone the state,
play random legal moves to a terminal state, and return `get_winner()` of
it. -/
def simulateModel (g : OthelloGame) (choose : Nat → Nat) : Option Int :=
  (simulateAux choose 65 0 (clone g)).map get_winner

/-- Heap of board lists.  Python's `OthelloGame.board` is a mutable list:
`clone` copies it (`self.board[:]`), while `apply_move` writes it in place,
so the aliasing the clone-independence claim is about is modelled explicitly
by a store of boards addressed by index. -/
abbrev Store : Type := List (Int → Int)

/-- Game object whose board lives in the store at index `ref`; the scalar
attributes live in the object itself. -/
structure HGame where
  ref : Nat
  current_player : Int
  last_move : Option Int
  turns_passed : Nat

/-- Observable state of a heap game: its board read from the store together
with its scalar attributes (an absent reference reads an empty board; the
operations below never produce one). -/
def readGame (s : Store) (g : HGame) : OthelloGame :=
  ⟨s.getD g.ref (fun _ => 0), g.current_player, g.last_move, g.turns_passed⟩

/-- Heap version of `apply_move`: the method mutates `self.board` in place —
the same list object, hence a store write at the object's own reference —
and updates the object's scalar attributes. -/
def hApplyMove (s : Store) (g : HGame) (mo : Option Int) : Store × HGame :=
  (s.set g.ref (apply_move (readGame s g) mo).board,
    ⟨g.ref, (apply_move (readGame s g) mo).current_player,
      (apply_move (readGame s g) mo).last_move,
      (apply_move (readGame s g) mo).turns_passed⟩)

/-- Heap version of `pass_turn`: only the scalar attributes change; the board
list is not touched. -/
def hPass (s : Store) (g : HGame) : Store × HGame :=
  (s, ⟨g.ref, -g.current_player, g.last_move, g.turns_passed + 1⟩)

/-- Heap version of `clone`: `OthelloGame()` allocates a brand-new board
list (a fresh store cell) and `self.board[:]` copies the contents into it;
the clone therefore never aliases the original's list. -/
def hClone (s : Store) (g : HGame) : Store × HGame :=
  (s ++ [s.getD g.ref (fun _ => 0)], ⟨s.length, g.current_player, none, 0⟩)

/-- Mutating operations of the public interface that the clone-independence
claim quantifies over. -/
inductive HOp where
  | moveOp (m : Option Int)
  | passOp

/-- Run a sequence of operations against a heap game. -/
def runOps : List HOp → Store × HGame → Store × HGame
  | [], sg => sg
  | HOp.moveOp m :: rest, (s, g) => runOps rest (hApplyMove s g m)
  | HOp.passOp :: rest, (s, g) => runOps rest (hPass s g)

/-!  Theorems.  -/

theorem foldl_update_apply (l : List Int) (b : Int → Int) (v j : Int) :
    (l.foldl (fun b' i => Function.update b' i v) b) j = if j ∈ l then v else b j := by
  induction l generalizing b with
  | nil => simp
  | cons a t ih =>
    simp only [List.foldl_cons, ih, Function.update_apply, List.mem_cons]
    by_cases hj : j ∈ t <;> by_cases hja : j = a <;> simp [hj, hja]

theorem flip_ray_mem (b : Int → Int) (p dx dy : Int) :
    ∀ (fuel : Nat) (nx ny : Int) (acc : List Int) (j : Int),
      j ∈ flip_ray b p dx dy fuel nx ny acc →
      j ∈ acc ∨ (0 ≤ j ∧ j < 64 ∧ b j ≠ 0 ∧ b j ≠ p) := by
  intro fuel
  induction fuel with
  | zero => intro nx ny acc j h; simp [flip_ray] at h
  | succ n ih =>
    intro nx ny acc j h
    simp only [flip_ray] at h
    by_cases hib : inb nx ny
    · simp only [if_pos hib] at h
      by_cases h0 : b (nx * 8 + ny) = 0
      · simp [h0] at h
      · by_cases hp : b (nx * 8 + ny) = p
        · simp only [if_neg h0, if_pos hp] at h
          exact Or.inl h
        · simp only [if_neg h0, if_neg hp] at h
          rcases ih _ _ _ _ h with hacc | hprop
          · rcases List.mem_append.mp hacc with hacc | hj
            · exact Or.inl hacc
            · have hj' : j = nx * 8 + ny := by simpa using hj
              right
              obtain ⟨h1, h2, h3, h4⟩ := hib
              subst hj'
              refine ⟨by omega, by omega, h0, hp⟩
          · exact Or.inr hprop
    · simp [if_neg hib] at h

/-- Bridge between the capture test of `is_valid_move` (run on the original
board) and the flip collection of `flip_discs` (run on the board with the
move already placed): along a ray the two walks see the same cells, and the
test succeeds exactly when the collected flip list is nonempty. -/
theorem can_flip_ray_bridge (b b1 : Int → Int) (p dx dy x y : Int)
    (hp : p = 1 ∨ p = -1)
    (hcells : ∀ i : Int, 0 ≤ i → i < 64 → b i = -1 ∨ b i = 0 ∨ b i = 1)
    (hxy : 0 ≤ x ∧ x < 8 ∧ 0 ≤ y ∧ y < 8)
    (hd : ¬(dx = 0 ∧ dy = 0))
    (hb1 : ∀ j : Int, 0 ≤ j → j < 64 → j ≠ x * 8 + y → b1 j = b j) :
    ∀ (fuel : Nat) (nx ny : Int) (flipped : Bool) (acc : List Int),
      ((dx = 0 ∧ nx = x) ∨ (0 < dx ∧ x < nx) ∨ (dx < 0 ∧ nx < x)) →
      ((dy = 0 ∧ ny = y) ∨ (0 < dy ∧ y < ny) ∨ (dy < 0 ∧ ny < y)) →
      (flipped = true ↔ acc ≠ []) →
      (can_flip_aux b p dx dy fuel nx ny flipped = true ↔
        flip_ray b1 p dx dy fuel nx ny acc ≠ []) := by
  intro fuel
  induction fuel with
  | zero => intro nx ny flipped acc _ _ _; simp [can_flip_aux, flip_ray]
  | succ n ih =>
    intro nx ny flipped acc hgx hgy hfa
    by_cases hib : inb nx ny
    · have hnexy : ¬(nx = x ∧ ny = y) := by
        rcases hgx with ⟨hdx0, _⟩ | ⟨hdxp, hlt⟩ | ⟨hdxn, hlt⟩
        · rcases hgy with ⟨hdy0, _⟩ | ⟨hdyp, hlt⟩ | ⟨hdyn, hlt⟩
          · exact absurd ⟨hdx0, hdy0⟩ hd
          · exact fun hc => by omega
          · exact fun hc => by omega
        · exact fun hc => by omega
        · exact fun hc => by omega
      have hne : nx * 8 + ny ≠ x * 8 + y := by
        obtain ⟨i1, i2, i3, i4⟩ := hib
        obtain ⟨j1, j2, j3, j4⟩ := hxy
        omega
      have hrange : 0 ≤ nx * 8 + ny ∧ nx * 8 + ny < 64 := by
        obtain ⟨i1, i2, i3, i4⟩ := hib
        omega
      have hbb : b1 (nx * 8 + ny) = b (nx * 8 + ny) :=
        hb1 _ hrange.1 hrange.2 hne
      have hgx' : (dx = 0 ∧ nx + dx = x) ∨ (0 < dx ∧ x < nx + dx) ∨ (dx < 0 ∧ nx + dx < x) := by
        rcases hgx with ⟨h1, h2⟩ | ⟨h1, h2⟩ | ⟨h1, h2⟩
        · exact Or.inl ⟨h1, by omega⟩
        · exact Or.inr (Or.inl ⟨h1, by omega⟩)
        · exact Or.inr (Or.inr ⟨h1, by omega⟩)
      have hgy' : (dy = 0 ∧ ny + dy = y) ∨ (0 < dy ∧ y < ny + dy) ∨ (dy < 0 ∧ ny + dy < y) := by
        rcases hgy with ⟨h1, h2⟩ | ⟨h1, h2⟩ | ⟨h1, h2⟩
        · exact Or.inl ⟨h1, by omega⟩
        · exact Or.inr (Or.inl ⟨h1, by omega⟩)
        · exact Or.inr (Or.inr ⟨h1, by omega⟩)
      rcases hcells _ hrange.1 hrange.2 with hc | hc | hc <;> rcases hp with hp1 | hp1
      -- b cell = -1, p = 1 : opponent disc, both walks continue
      · have e1 : can_flip_aux b p dx dy (n + 1) nx ny flipped =
            can_flip_aux b p dx dy n (nx + dx) (ny + dy) true := by
          simp [can_flip_aux, hib, hc, hp1]
        have e2 : flip_ray b1 p dx dy (n + 1) nx ny acc =
            flip_ray b1 p dx dy n (nx + dx) (ny + dy) (acc ++ [nx * 8 + ny]) := by
          simp [flip_ray, hib, hbb, hc, hp1]
        rw [e1, e2]
        exact ih _ _ _ _ hgx' hgy' (by simp)
      -- b cell = -1, p = -1 : own disc, both walks stop
      · have e1 : can_flip_aux b p dx dy (n + 1) nx ny flipped = flipped := by
          simp [can_flip_aux, hib, hc, hp1]
        have e2 : flip_ray b1 p dx dy (n + 1) nx ny acc = acc := by
          simp [flip_ray, hib, hbb, hc, hp1]
        rw [e1, e2]
        exact hfa
      -- b cell = 0 : both walks give up
      · have e1 : can_flip_aux b p dx dy (n + 1) nx ny flipped = false := by
          simp [can_flip_aux, hib, hc, hp1]
        have e2 : flip_ray b1 p dx dy (n + 1) nx ny acc = [] := by
          simp [flip_ray, hib, hbb, hc]
        rw [e1, e2]
        simp
      · have e1 : can_flip_aux b p dx dy (n + 1) nx ny flipped = false := by
          simp [can_flip_aux, hib, hc, hp1]
        have e2 : flip_ray b1 p dx dy (n + 1) nx ny acc = [] := by
          simp [flip_ray, hib, hbb, hc]
        rw [e1, e2]
        simp
      -- b cell = 1, p = 1 : own disc, both walks stop
      · have e1 : can_flip_aux b p dx dy (n + 1) nx ny flipped = flipped := by
          simp [can_flip_aux, hib, hc, hp1]
        have e2 : flip_ray b1 p dx dy (n + 1) nx ny acc = acc := by
          simp [flip_ray, hib, hbb, hc, hp1]
        rw [e1, e2]
        exact hfa
      -- b cell = 1, p = -1 : opponent disc, both walks continue
      · have e1 : can_flip_aux b p dx dy (n + 1) nx ny flipped =
            can_flip_aux b p dx dy n (nx + dx) (ny + dy) true := by
          simp [can_flip_aux, hib, hc, hp1]
        have e2 : flip_ray b1 p dx dy (n + 1) nx ny acc =
            flip_ray b1 p dx dy n (nx + dx) (ny + dy) (acc ++ [nx * 8 + ny]) := by
          simp [flip_ray, hib, hbb, hc, hp1]
        rw [e1, e2]
        exact ih _ _ _ _ hgx' hgy' (by simp)
    · simp [can_flip_aux, flip_ray, hib]

end Osero
namespace Osero

theorem valid_board_empty (g : OthelloGame) (index : Int)
    (hv : is_valid_move g index = true) : g.board index = 0 := by
  by_contra hne
  simp [is_valid_move, hne] at hv

theorem dirs_mem_iff (d : Int × Int) : d ∈ validDirs ↔ d ∈ flipDirs := by
  simp only [validDirs, flipDirs, List.mem_cons, List.not_mem_nil, or_false]
  tauto

/-- Validity of a move is equivalent to `flip_discs` (run, as the source does,
on the board with the move already written) returning a nonempty flip list. -/
theorem valid_iff_flips_ne (g g1 : OthelloGame) (hwf : WellFormed g)
    (index : Int) (h0 : 0 ≤ index) (h64 : index < 64) (hemp : g.board index = 0)
    (hg1 : g1.board = Function.update g.board index g.current_player) :
    (is_valid_move g index = true ↔ flip_discs g1 index g.current_player ≠ []) := by
  obtain ⟨hcells, hp⟩ := hwf
  have hcells' : ∀ i : Int, 0 ≤ i → i < 64 → g.board i = -1 ∨ g.board i = 0 ∨ g.board i = 1 :=
    fun i h1 h2 => hcells i (Finset.mem_Icc.mpr ⟨h1, by omega⟩)
  have hxy : 0 ≤ index / 8 ∧ index / 8 < 8 ∧ 0 ≤ index % 8 ∧ index % 8 < 8 := by omega
  have hb1 : ∀ j : Int, 0 ≤ j → j < 64 → j ≠ index / 8 * 8 + index % 8 →
      g1.board j = g.board j := by
    intro j _ _ hj
    rw [hg1, Function.update_apply, if_neg (by omega)]
  have hbridge : ∀ d : Int × Int, d ∈ validDirs ∨ d ∈ flipDirs →
      (can_flip g (index / 8) (index % 8) d.1 d.2 = true ↔
        flip_ray g1.board g.current_player d.1 d.2 8
          (index / 8 + d.1) (index % 8 + d.2) [] ≠ []) := by
    intro d hd
    have hd00 : ¬(d.1 = 0 ∧ d.2 = 0) := by
      simp only [validDirs, flipDirs, List.mem_cons, List.not_mem_nil, or_false] at hd
      rcases hd with (h | h | h | h | h | h | h | h) | (h | h | h | h | h | h | h | h) <;>
        subst h <;> simp
    exact can_flip_ray_bridge g.board g1.board g.current_player d.1 d.2
      (index / 8) (index % 8) hp hcells' hxy hd00 hb1 8
      (index / 8 + d.1) (index % 8 + d.2) false []
      (by rcases lt_trichotomy d.1 0 with h | h | h
          · exact Or.inr (Or.inr ⟨h, by omega⟩)
          · exact Or.inl ⟨h, by omega⟩
          · exact Or.inr (Or.inl ⟨h, by omega⟩))
      (by rcases lt_trichotomy d.2 0 with h | h | h
          · exact Or.inr (Or.inr ⟨h, by omega⟩)
          · exact Or.inl ⟨h, by omega⟩
          · exact Or.inr (Or.inl ⟨h, by omega⟩))
      (by simp)
  have hval : is_valid_move g index = true ↔
      ∃ d ∈ validDirs, can_flip g (index / 8) (index % 8) d.1 d.2 = true := by
    simp [is_valid_move, h0, h64, hemp, List.any_eq_true]
  have hflip : flip_discs g1 index g.current_player ≠ [] ↔
      ∃ d ∈ flipDirs, flip_ray g1.board g.current_player d.1 d.2 8
        (index / 8 + d.1) (index % 8 + d.2) [] ≠ [] := by
    rw [flip_discs, Ne, List.flatten_eq_nil_iff]
    constructor
    · intro h
      by_contra hc
      push_neg at hc
      exact h (by
        intro s hs
        obtain ⟨d, hd, rfl⟩ := List.mem_map.mp hs
        exact hc d hd)
    · rintro ⟨d, hd, hne⟩ hall
      exact hne (hall _ (List.mem_map.mpr ⟨d, hd, rfl⟩))
  rw [hval, hflip]
  constructor
  · rintro ⟨d, hd, hcf⟩
    exact ⟨d, (dirs_mem_iff d).mp hd, (hbridge d (Or.inl hd)).mp hcf⟩
  · rintro ⟨d, hd, hcf⟩
    exact ⟨d, (dirs_mem_iff d).mpr hd, (hbridge d (Or.inr hd)).mpr hcf⟩

/-- Each cell collected by `flip_discs` is in range and currently holds
neither an empty marker nor the flipping player's marker. -/
theorem flip_discs_cells (g1 : OthelloGame) (m p : Int) :
    ∀ j ∈ flip_discs g1 m p, 0 ≤ j ∧ j < 64 ∧ g1.board j ≠ 0 ∧ g1.board j ≠ p := by
  intro j hj
  rw [flip_discs] at hj
  obtain ⟨s, hs, hjs⟩ := List.mem_flatten.mp hj
  obtain ⟨d, hd, rfl⟩ := List.mem_map.mp hs
  rcases flip_ray_mem g1.board p d.1 d.2 8 _ _ [] j hjs with h | h
  · simp at h
  · exact h

/-- C3: a move is valid exactly when applying it increases the mover's disc
count by at least 2 (the placed disc plus at least one flipped disc). -/
theorem c3_valid_iff_gains_two (g : OthelloGame) (hwf : WellFormed g)
    (index : Int) (h0 : 0 ≤ index) (h64 : index < 64) :
    (is_valid_move g index = true ↔
      discCount g g.current_player + 2 ≤
        discCount (apply_move g (some index)) g.current_player) := by
  by_cases hv : is_valid_move g index = true
  · simp only [hv, true_iff]
    have hemp : g.board index = 0 := valid_board_empty g index hv
    have hpne : g.current_player ≠ 0 := by
      rcases hwf.2 with h | h <;> rw [h] <;> decide
    have happ : apply_move g (some index) =
        ⟨(flip_discs ⟨Function.update g.board index g.current_player, g.current_player,
              some index, g.turns_passed⟩ index g.current_player).foldl
            (fun b j => Function.update b j g.current_player)
            (Function.update g.board index g.current_player),
          -g.current_player, some index, 0⟩ := by
      simp [apply_move, hv]
    have hflipsne :
        flip_discs ⟨Function.update g.board index g.current_player, g.current_player,
          some index, g.turns_passed⟩ index g.current_player ≠ [] :=
      (valid_iff_flips_ne g _ hwf index h0 h64 hemp rfl).mp hv
    have hcellprops := flip_discs_cells
      ⟨Function.update g.board index g.current_player, g.current_player,
        some index, g.turns_passed⟩ index g.current_player
    have hnotidx : ∀ j ∈ flip_discs ⟨Function.update g.board index g.current_player,
        g.current_player, some index, g.turns_passed⟩ index g.current_player, j ≠ index := by
      intro j hj heq
      have := (hcellprops j hj).2.2.2
      rw [heq] at this
      exact this (Function.update_same index g.current_player g.board)
    have hold : ∀ j ∈ flip_discs ⟨Function.update g.board index g.current_player,
        g.current_player, some index, g.turns_passed⟩ index g.current_player,
        g.board j ≠ 0 ∧ g.board j ≠ g.current_player := by
      intro j hj
      have hj' := hcellprops j hj
      dsimp only at hj'
      rw [Function.update_noteq (hnotidx j hj)] at hj'
      exact ⟨hj'.2.2.1, hj'.2.2.2⟩
    have hdc : discCount (apply_move g (some index)) g.current_player =
        ((Finset.Icc (0 : Int) 63).filter (fun j =>
          (if j ∈ flip_discs ⟨Function.update g.board index g.current_player,
              g.current_player, some index, g.turns_passed⟩ index g.current_player
            then g.current_player
            else Function.update g.board index g.current_player j) = g.current_player)).card := by
      unfold discCount
      congr 1
      apply Finset.filter_congr
      intro j _
      rw [happ]
      dsimp only
      rw [foldl_update_apply]
    rw [hdc]
    have hsub : insert index (insert
        ((flip_discs ⟨Function.update g.board index g.current_player, g.current_player,
          some index, g.turns_passed⟩ index g.current_player).head hflipsne)
        ((Finset.Icc (0 : Int) 63).filter (fun j => g.board j = g.current_player))) ⊆
        ((Finset.Icc (0 : Int) 63).filter (fun j =>
          (if j ∈ flip_discs ⟨Function.update g.board index g.current_player,
              g.current_player, some index, g.turns_passed⟩ index g.current_player
            then g.current_player
            else Function.update g.board index g.current_player j) = g.current_player)) := by
      intro j hj
      have hf0mem := List.head_mem hflipsne
      simp only [Finset.mem_insert, Finset.mem_filter, Finset.mem_Icc] at hj ⊢
      rcases hj with rfl | rfl | ⟨hrange, hbj⟩
      · refine ⟨⟨h0, by omega⟩, ?_⟩
        rw [if_neg (fun hmem => hnotidx _ hmem rfl), Function.update_same]
      · have hr := hcellprops _ hf0mem
        exact ⟨⟨hr.1, by omega⟩, by rw [if_pos hf0mem]⟩
      · refine ⟨⟨hrange.1, hrange.2⟩, ?_⟩
        have hjne : j ≠ index := by
          intro heq
          rw [heq, hemp] at hbj
          exact hpne hbj.symm
        have hjnf : j ∉ flip_discs ⟨Function.update g.board index g.current_player,
            g.current_player, some index, g.turns_passed⟩ index g.current_player := by
          intro hmem
          exact (hold j hmem).2 hbj
        rw [if_neg hjnf, Function.update_noteq hjne, hbj]
    have hcard : (insert index (insert
        ((flip_discs ⟨Function.update g.board index g.current_player, g.current_player,
          some index, g.turns_passed⟩ index g.current_player).head hflipsne)
        ((Finset.Icc (0 : Int) 63).filter (fun j => g.board j = g.current_player)))).card =
        ((Finset.Icc (0 : Int) 63).filter (fun j => g.board j = g.current_player)).card + 2 := by
      have hf0mem := List.head_mem hflipsne
      have hf0nS : ((flip_discs ⟨Function.update g.board index g.current_player,
          g.current_player, some index, g.turns_passed⟩ index g.current_player).head hflipsne) ∉
          ((Finset.Icc (0 : Int) 63).filter (fun j => g.board j = g.current_player)) := by
        simp only [Finset.mem_filter, not_and]
        intro _
        exact (hold _ hf0mem).2
      have hinS : index ∉ insert
          ((flip_discs ⟨Function.update g.board index g.current_player, g.current_player,
            some index, g.turns_passed⟩ index g.current_player).head hflipsne)
          ((Finset.Icc (0 : Int) 63).filter (fun j => g.board j = g.current_player)) := by
        simp only [Finset.mem_insert, Finset.mem_filter, not_or, not_and]
        refine ⟨fun heq => hnotidx _ hf0mem heq.symm, fun _ hbe => ?_⟩
        rw [hemp] at hbe
        exact hpne hbe.symm
      rw [Finset.card_insert_of_not_mem hinS, Finset.card_insert_of_not_mem hf0nS]
    calc discCount g g.current_player + 2
        = _ := hcard.symm
      _ ≤ _ := Finset.card_le_card hsub
  · have hvf : is_valid_move g index = false := by simpa using hv
    have hid : apply_move g (some index) = g := by simp [apply_move, hvf]
    rw [hvf, hid]
    simp only [Bool.false_eq_true, false_iff]
    intro hc
    omega


theorem wf_clone (g : OthelloGame) (hwf : WellFormed g) : WellFormed (clone g) := hwf

theorem wf_pass (g : OthelloGame) (hwf : WellFormed g) : WellFormed (pass_turn g) := by
  refine ⟨hwf.1, ?_⟩
  rcases hwf.2 with h | h <;> rw [pass_turn] <;> rw [h] <;> simp

theorem wf_apply_move (g : OthelloGame) (hwf : WellFormed g) (mo : Option Int) :
    WellFormed (apply_move g mo) := by
  match mo with
  | none => exact hwf
  | some m =>
    by_cases hv : is_valid_move g m
    · have happ : apply_move g (some m) =
          ⟨(flip_discs ⟨Function.update g.board m g.current_player, g.current_player,
                some m, g.turns_passed⟩ m g.current_player).foldl
              (fun b j => Function.update b j g.current_player)
              (Function.update g.board m g.current_player),
            -g.current_player, some m, 0⟩ := by
        simp [apply_move, hv]
      rw [happ]
      constructor
      · intro i hi
        dsimp only
        rw [foldl_update_apply]
        have hcell := hwf.1 i hi
        by_cases hL : i ∈ flip_discs ⟨Function.update g.board m g.current_player,
            g.current_player, some m, g.turns_passed⟩ m g.current_player
        · rw [if_pos hL]
          rcases hwf.2 with hp | hp <;> rw [hp] <;> simp
        · rw [if_neg hL, Function.update_apply]
          by_cases him : i = m
          · rw [if_pos him]
            rcases hwf.2 with hp | hp <;> rw [hp] <;> simp
          · rw [if_neg him]
            exact hcell
      · rcases hwf.2 with hp | hp <;> rw [hp] <;> simp
    · have hvf : is_valid_move g m = false := by simpa using hv
      have hid : apply_move g (some m) = g := by simp [apply_move, hvf]
      rw [hid]
      exact hwf

theorem list_sum_bounds (l : List Int) (hb : ∀ x ∈ l, -1 ≤ x ∧ x ≤ 1) :
    -(l.length : Int) ≤ l.sum ∧ l.sum ≤ l.length := by
  induction l with
  | nil => simp
  | cons a t ih =>
    have ha := hb a (List.mem_cons_self a t)
    have ht := ih (fun x hx => hb x (List.mem_cons_of_mem a hx))
    simp only [List.sum_cons, List.length_cons]
    push_cast
    omega

theorem mem_boardIdx (j : Int) : j ∈ boardIdx ↔ 0 ≤ j ∧ j < 64 := by
  simp only [boardIdx, List.mem_map, List.mem_range, Int.ofNat_eq_coe]
  constructor
  · rintro ⟨i, hi, rfl⟩
    omega
  · rintro ⟨h0, h64⟩
    exact ⟨j.toNat, by omega, by omega⟩

theorem evaluate_bounds (g : OthelloGame) (hwf : WellFormed g) :
    -64 ≤ evaluate g ∧ evaluate g ≤ 64 := by
  have hb : ∀ x ∈ boardIdx.map (fun j => g.board j), -1 ≤ x ∧ x ≤ 1 := by
    intro x hx
    obtain ⟨j, hj, rfl⟩ := List.mem_map.mp hx
    have hjr := (mem_boardIdx j).mp hj
    have hmem : j ∈ Finset.Icc (0 : Int) 63 := by
      rw [Finset.mem_Icc]
      omega
    rcases hwf.1 j hmem with h | h | h <;> rw [h] <;> exact ⟨by omega, by omega⟩
  have hs := list_sum_bounds _ hb
  have hlen : ((boardIdx.map (fun j => g.board j)).length : Int) = 64 := by
    simp [boardIdx]
  rw [evaluate]
  omega

theorem foldl_max_le (l : List Int) (B : Int) :
    ∀ init, init ≤ B → (∀ x ∈ l, x ≤ B) → l.foldl max init ≤ B := by
  induction l with
  | nil => intro init h _; simpa using h
  | cons a t ih =>
    intro init h hall
    simp only [List.foldl_cons]
    exact ih _ (max_le h (hall a (List.mem_cons_self a t)))
      (fun x hx => hall x (List.mem_cons_of_mem a hx))

theorem le_foldl_max_init (l : List Int) : ∀ init, init ≤ l.foldl max init := by
  induction l with
  | nil => intro init; simp
  | cons a t ih =>
    intro init
    simp only [List.foldl_cons]
    exact le_trans (le_max_left _ _) (ih _)

theorem le_foldl_max_mem (l : List Int) (x : Int) (hx : x ∈ l) :
    ∀ init, x ≤ l.foldl max init := by
  induction l with
  | nil => cases hx
  | cons a t ih =>
    intro init
    simp only [List.foldl_cons]
    rcases List.mem_cons.mp hx with rfl | hmem
    · exact le_trans (le_max_right _ _) (le_foldl_max_init t _)
    · exact ih hmem _

theorem foldl_max_init_max (l : List Int) :
    ∀ a b : Int, l.foldl max (max a b) = max (l.foldl max a) b := by
  induction l with
  | nil => intro a b; simp
  | cons c t ih =>
    intro a b
    simp only [List.foldl_cons]
    rw [sup_right_comm a b c, ih]


theorem neg_color (c : Int) (hc : c = 1 ∨ c = -1) : -c = 1 ∨ -c = -1 := by
  rcases hc with rfl | rfl
  · exact Or.inr rfl
  · exact Or.inl rfl

theorem color_mul_bounds (c e : Int) (hc : c = 1 ∨ c = -1) (he : -64 ≤ e ∧ e ≤ 64) :
    -64 ≤ c * e ∧ c * e ≤ 64 := by
  rcases hc with rfl | rfl <;> constructor <;> nlinarith [he.1, he.2]

theorem wf_child (g : OthelloGame) (hwf : WellFormed g) (m : Int) :
    WellFormed (apply_move (clone g) (some m)) :=
  wf_apply_move (clone g) (wf_clone g hwf) (some m)

theorem negamax_bounds : ∀ (d : Nat) (g : OthelloGame) (c : Int), WellFormed g →
    (c = 1 ∨ c = -1) → -64 ≤ negamax g d c ∧ negamax g d c ≤ 64 := by
  intro d
  induction d with
  | zero =>
    intro g c hwf hc
    simp only [negamax]
    exact color_mul_bounds c _ hc (evaluate_bounds g hwf)
  | succ n ih =>
    intro g c hwf hc
    by_cases hterm : is_game_over g = true
    · simp only [negamax, hterm, if_true]
      exact color_mul_bounds c _ hc (evaluate_bounds g hwf)
    · have htf : is_game_over g = false := by simpa using hterm
      cases hmv : get_valid_moves g with
      | nil =>
        simp only [negamax, htf, Bool.false_eq_true, if_false, hmv]
        have := ih g (-c) hwf (neg_color c hc)
        omega
      | cons m ms =>
        simp only [negamax, htf, Bool.false_eq_true, if_false, hmv]
        have hall : ∀ x ∈ (m :: ms).map
            (fun mv => -(negamax (apply_move (clone g) (some mv)) n (-c))),
            -64 ≤ x ∧ x ≤ 64 := by
          intro x hx
          obtain ⟨mv, _, rfl⟩ := List.mem_map.mp hx
          have := ih (apply_move (clone g) (some mv)) (-c) (wf_child g hwf mv)
            (neg_color c hc)
          omega
        constructor
        · have hhead : -(negamax (apply_move (clone g) (some m)) n (-c)) ∈
              (m :: ms).map (fun mv => -(negamax (apply_move (clone g) (some mv)) n (-c))) :=
            List.mem_map.mpr ⟨m, List.mem_cons_self m ms, rfl⟩
          have h1 := (hall _ hhead).1
          have h2 := le_foldl_max_mem _ _ hhead (-INF)
          omega
        · refine foldl_max_le _ 64 (-INF) (by rw [INF]; omega) (fun x hx => (hall x hx).2)

theorem ns_bounds : ∀ (d : Nat) (g : OthelloGame) (alpha beta c : Int), WellFormed g →
    (c = 1 ∨ c = -1) →
    -64 ≤ (negascout g d alpha beta c).1 ∧ (negascout g d alpha beta c).1 ≤ 64 := by
  intro d
  induction d with
  | zero =>
    intro g alpha beta c hwf hc
    simp only [negascout]
    exact color_mul_bounds c _ hc (evaluate_bounds g hwf)
  | succ n ih =>
    have hcs : ∀ (beta c : Int) (g : OthelloGame) (m : Int) (first : Bool) (alpha : Int),
        WellFormed g → (c = 1 ∨ c = -1) →
        -64 ≤ ns_cs n beta c g m first alpha ∧ ns_cs n beta c g m first alpha ≤ 64 := by
      intro beta c g m first alpha hwf hc
      have h1 := ih (apply_move (clone g) (some m)) (-beta) (-alpha) (-c)
        (wf_child g hwf m) (neg_color c hc)
      have h2 := ih (apply_move (clone g) (some m)) (-alpha - 1) (-alpha) (-c)
        (wf_child g hwf m) (neg_color c hc)
      have h3 := ih (apply_move (clone g) (some m)) (-beta)
        (-(-(negascout (apply_move (clone g) (some m)) n (-alpha - 1) (-alpha) (-c)).1)) (-c)
        (wf_child g hwf m) (neg_color c hc)
      simp only [ns_cs]
      by_cases hf : first = true
      · simp only [hf, if_true]
        omega
      · have hff : first = false := by simpa using hf
        simp only [hff, Bool.false_eq_true, if_false]
        by_cases hcond : alpha < -(negascout (apply_move (clone g) (some m)) n
            (-alpha - 1) (-alpha) (-c)).1 ∧
            -(negascout (apply_move (clone g) (some m)) n (-alpha - 1) (-alpha) (-c)).1 < beta
        · rw [if_pos hcond]
          omega
        · rw [if_neg hcond]
          omega
    have hfold : ∀ (l : List Int) (beta c : Int) (g : OthelloGame) (first : Bool)
        (score alpha : Int) (best : Option Int), WellFormed g → (c = 1 ∨ c = -1) →
        score ≤ 64 → (l = [] → -64 ≤ score) →
        -64 ≤ (ns_fold n beta c g l first score alpha best).1 ∧
          (ns_fold n beta c g l first score alpha best).1 ≤ 64 := by
      intro l
      induction l with
      | nil =>
        intro beta c g first score alpha best _ _ hs hse
        simp only [ns_fold]
        exact ⟨hse rfl, hs⟩
      | cons m rest ihl =>
        intro beta c g first score alpha best hwf hc hs _
        have hcsb := hcs beta c g m first alpha hwf hc
        simp only [ns_fold]
        by_cases hgt : ns_cs n beta c g m first alpha > score
        · simp only [hgt, if_pos, if_true]
          by_cases hbr : beta ≤ max alpha (ns_cs n beta c g m first alpha)
          · rw [if_pos hbr]
            exact ⟨hcsb.1, hcsb.2⟩
          · rw [if_neg hbr]
            exact ihl beta c g false _ _ _ hwf hc hcsb.2 (fun _ => hcsb.1)
        · simp only [hgt, if_neg, if_false]
          by_cases hbr : beta ≤ max alpha score
          · rw [if_pos hbr]
            refine ⟨?_, hs⟩
            omega
          · rw [if_neg hbr]
            refine ihl beta c g false _ _ _ hwf hc hs (fun _ => by omega)
    intro g alpha beta c hwf hc
    by_cases hterm : is_game_over g = true
    · simp only [negascout, hterm, if_true]
      exact color_mul_bounds c _ hc (evaluate_bounds g hwf)
    · have htf : is_game_over g = false := by simpa using hterm
      cases hmv : get_valid_moves g with
      | nil =>
        simp only [negascout, htf, Bool.false_eq_true, if_false, hmv]
        have := ih g (-beta) (-alpha) (-c) hwf (neg_color c hc)
        omega
      | cons m ms =>
        simp only [negascout, htf, Bool.false_eq_true, if_false, hmv]
        exact hfold (m :: ms) beta c g true (-INF) alpha none hwf hc
          (by rw [INF]; omega) (by intro h; cases h)


/-- Fail-soft window facts for the score `ns_cs` computes for one move, given
the same facts one depth lower (the induction hypothesis of `ns_main`):
a result at most `alpha` is an upper bound on the move's exhaustive value, a
result at least `beta` is a lower bound, and a result strictly inside the
window is exact. -/
theorem ns_cs_tri (n : Nat)
    (ih : ∀ (g : OthelloGame) (alpha beta c : Int), WellFormed g → (c = 1 ∨ c = -1) →
      alpha < beta → -INF ≤ alpha → beta ≤ INF →
      (((negascout g n alpha beta c).1 ≤ alpha →
          negamax g n c ≤ (negascout g n alpha beta c).1) ∧
        (beta ≤ (negascout g n alpha beta c).1 →
          (negascout g n alpha beta c).1 ≤ negamax g n c) ∧
        (alpha < (negascout g n alpha beta c).1 → (negascout g n alpha beta c).1 < beta →
          (negascout g n alpha beta c).1 = negamax g n c)))
    (beta c : Int) (g : OthelloGame) (m : Int) (first : Bool) (alpha : Int)
    (hwf : WellFormed g) (hc : c = 1 ∨ c = -1) (hab : alpha < beta)
    (hai : -INF ≤ alpha) (hbi : beta ≤ INF) :
    (ns_cs n beta c g m first alpha ≤ alpha →
      nm_val n c g m ≤ ns_cs n beta c g m first alpha) ∧
    (beta ≤ ns_cs n beta c g m first alpha →
      ns_cs n beta c g m first alpha ≤ nm_val n c g m) ∧
    (alpha < ns_cs n beta c g m first alpha → ns_cs n beta c g m first alpha < beta →
      ns_cs n beta c g m first alpha = nm_val n c g m) := by
  have hwfc := wf_child g hwf m
  have hcc := neg_color c hc
  cases first with
  | true =>
    obtain ⟨hA, hB, hC⟩ := ih (apply_move (clone g) (some m)) (-beta) (-alpha) (-c) hwfc hcc
      (by omega) (by omega) (by omega)
    simp only [ns_cs, nm_val, if_pos rfl, if_true]
    refine ⟨fun h => ?_, fun h => ?_, fun h1 h2 => ?_⟩
    · have := hB (by omega)
      omega
    · have := hA (by omega)
      omega
    · have := hC (by omega) (by omega)
      omega
  | false =>
    obtain ⟨hA, hB, hC⟩ := ih (apply_move (clone g) (some m)) (-alpha - 1) (-alpha) (-c)
      hwfc hcc (by omega) (by omega) (by omega)
    have hrb := ns_bounds n (apply_move (clone g) (some m)) (-alpha - 1) (-alpha) (-c)
      hwfc hcc
    simp only [ns_cs, nm_val, Bool.false_eq_true, if_false]
    by_cases hcond : alpha < -(negascout (apply_move (clone g) (some m)) n
        (-alpha - 1) (-alpha) (-c)).1 ∧
        -(negascout (apply_move (clone g) (some m)) n (-alpha - 1) (-alpha) (-c)).1 < beta
    · rw [if_pos hcond]
      -- the null-window search failed high: its value is a lower bound
      have hlow : -(negascout (apply_move (clone g) (some m)) n
          (-alpha - 1) (-alpha) (-c)).1 ≤ -(negamax (apply_move (clone g) (some m)) n (-c)) := by
        have := hA (by omega)
        omega
      obtain ⟨hA2, hB2, hC2⟩ := ih (apply_move (clone g) (some m)) (-beta)
        (-(-(negascout (apply_move (clone g) (some m)) n (-alpha - 1) (-alpha) (-c)).1)) (-c)
        hwfc hcc (by omega) (by omega) (by omega)
      refine ⟨fun h => ?_, fun h => ?_, fun h1 h2 => ?_⟩
      · have := hB2 (by omega)
        omega
      · have := hA2 (by omega)
        omega
      · by_cases hcs : -(negascout (apply_move (clone g) (some m)) n (-beta)
            (-(-(negascout (apply_move (clone g) (some m)) n
              (-alpha - 1) (-alpha) (-c)).1)) (-c)).1 ≤
            -(negascout (apply_move (clone g) (some m)) n (-alpha - 1) (-alpha) (-c)).1
        · have := hB2 (by omega)
          omega
        · have := hC2 (by omega) (by omega)
          omega
    · rw [if_neg hcond]
      refine ⟨fun h => ?_, fun h => ?_, fun h1 h2 => ?_⟩
      · have := hB (by omega)
        omega
      · have := hA (by omega)
        omega
      · omega


/-- Fail-soft window facts for the move loop of `negascout`, by induction over
the remaining moves: relative to the true running maximum (the incoming
`score` joined with the exhaustive values of the remaining moves), the loop's
result is an upper bound when it fails low, a lower bound when it fails high,
and exact when it lands strictly inside the window. -/
theorem ns_fold_tri (n : Nat)
    (ih : ∀ (g : OthelloGame) (alpha beta c : Int), WellFormed g → (c = 1 ∨ c = -1) →
      alpha < beta → -INF ≤ alpha → beta ≤ INF →
      (((negascout g n alpha beta c).1 ≤ alpha →
          negamax g n c ≤ (negascout g n alpha beta c).1) ∧
        (beta ≤ (negascout g n alpha beta c).1 →
          (negascout g n alpha beta c).1 ≤ negamax g n c) ∧
        (alpha < (negascout g n alpha beta c).1 → (negascout g n alpha beta c).1 < beta →
          (negascout g n alpha beta c).1 = negamax g n c))) :
    ∀ (l : List Int) (beta c : Int) (g : OthelloGame) (first : Bool)
      (score alpha : Int) (best : Option Int), WellFormed g → (c = 1 ∨ c = -1) →
      alpha < beta → -INF ≤ alpha → beta ≤ INF → score ≤ alpha →
      (score ≤ (ns_fold n beta c g l first score alpha best).1) ∧
      ((ns_fold n beta c g l first score alpha best).1 ≤ alpha →
        (l.map (nm_val n c g)).foldl max score ≤
          (ns_fold n beta c g l first score alpha best).1) ∧
      (beta ≤ (ns_fold n beta c g l first score alpha best).1 →
        (ns_fold n beta c g l first score alpha best).1 ≤
          (l.map (nm_val n c g)).foldl max score) ∧
      (alpha < (ns_fold n beta c g l first score alpha best).1 →
        (ns_fold n beta c g l first score alpha best).1 < beta →
        (ns_fold n beta c g l first score alpha best).1 =
          (l.map (nm_val n c g)).foldl max score) := by
  intro l
  induction l with
  | nil =>
    intro beta c g first score alpha best _ _ _ _ _ _
    simp only [ns_fold, List.map_nil, List.foldl_nil]
    exact ⟨le_refl _, fun _ => le_refl _, fun _ => le_refl _, fun _ _ => trivial⟩
  | cons m rest ihl =>
    intro beta c g first score alpha best hwf hc hab hai hbi hsa
    obtain ⟨F1, F2, F3⟩ := ns_cs_tri n ih beta c g m first alpha hwf hc hab hai hbi
    simp only [ns_fold, List.map_cons, List.foldl_cons]
    set cs := ns_cs n beta c g m first alpha with hcsdef
    set vm := nm_val n c g m with hvmdef
    set W := (rest.map (nm_val n c g)).foldl max score with hWdef
    have hVsplit : (rest.map (nm_val n c g)).foldl max (max score vm) = max W vm :=
      foldl_max_init_max _ score vm
    set sc' := if cs > score then cs else score with hscdef
    have hsc_cases : (¬cs > score ∧ sc' = score) ∨ (cs > score ∧ sc' = cs) := by
      rw [hscdef]
      by_cases h : cs > score
      · exact Or.inr ⟨h, if_pos h⟩
      · exact Or.inl ⟨h, if_neg h⟩
    have hsc_ge_s : score ≤ sc' := by
      rw [hscdef]
      by_cases h : cs > score
      · rw [if_pos h]
        omega
      · rw [if_neg h]
    have hsc_ge_c : cs ≤ sc' := by
      rw [hscdef]
      by_cases h : cs > score
      · rw [if_pos h]
      · rw [if_neg h]
        omega
    have hVrec : (rest.map (nm_val n c g)).foldl max sc' = max W cs ∨
        (rest.map (nm_val n c g)).foldl max sc' = W := by
      rcases hsc_cases with ⟨h0, h⟩ | ⟨h0, h⟩
      · rw [h]
        exact Or.inr rfl
      · left
        rw [h]
        have h2 : max score cs = cs := by omega
        conv_lhs => rw [← h2]
        exact foldl_max_init_max _ score cs
    by_cases hbr : beta ≤ max alpha sc'
    · rw [if_pos hbr]
      have hm1 := le_max_left alpha sc'
      have hm2 := le_max_right alpha sc'
      have hm3 := max_choice alpha sc'
      have hscb : beta ≤ sc' := by
        rcases hm3 with h | h <;> omega
      have hsceqcs : sc' = cs := by
        rcases hsc_cases with ⟨h0, h⟩ | ⟨h0, h⟩ <;> omega
      refine ⟨hsc_ge_s, fun hle => ?_, fun _ => ?_, fun h1 h2 => ?_⟩
      · omega
      · have hvm := F2 (by omega)
        rw [hVsplit]
        have := le_max_right W vm
        omega
      · omega
    · rw [if_neg hbr]
      have hm1 := le_max_left alpha sc'
      have hm2 := le_max_right alpha sc'
      have hm3 := max_choice alpha sc'
      have hab' : max alpha sc' < beta := by omega
      set best' := (if cs > score then some m else best : Option Int) with hbestdef
      obtain ⟨D', A', B', C'⟩ := ihl beta c g false sc' (max alpha sc') best' hwf hc
        hab' (by omega) hbi hm2
      set r := (ns_fold n beta c g rest false sc' (max alpha sc') best').1 with hrdef
      have hWV1 := le_max_left W cs
      have hWV2 := le_max_right W cs
      have hVm1 := le_max_left W vm
      have hVm2 := le_max_right W vm
      have hsplitV' : (rest.map (nm_val n c g)).foldl max sc' ≤ max W cs ∧
          W ≤ (rest.map (nm_val n c g)).foldl max sc' := by
        rcases hVrec with h | h <;> rw [h]
        · exact ⟨le_refl _, hWV1⟩
        · exact ⟨hWV1, le_refl _⟩
      refine ⟨?_, fun hle => ?_, fun hge => ?_, fun h1 h2 => ?_⟩
      · omega
      · -- fail low: every value is at most the result
        have hA := A' (by omega)
        have hcsr : cs ≤ r := by
          rcases hVrec with h | h
          · rw [h] at hA
            omega
          · have := le_foldl_max_init (rest.map (nm_val n c g)) sc'
            omega
        have hvm : vm ≤ cs := F1 (by omega)
        rw [hVsplit]
        have hWr : W ≤ r := by omega
        have : max W vm ≤ r := max_le hWr (by omega)
        omega
      · -- fail high: the result is at most some true value
        have hB := B' hge
        rw [hVsplit]
        rcases hVrec with h | h
        · rw [h] at hB
          rcases le_max_iff.mp hB with h2 | h2
          · omega
          · have := F2 (by omega)
            omega
        · rw [h] at hB
          omega
      · -- exact: the result equals the true maximum
        rw [hVsplit]
        have hV'r : (rest.map (nm_val n c g)).foldl max sc' ≤ r := by
          rcases lt_or_le (max alpha sc') r with hgt | hle2
          · rw [C' hgt h2]
          · exact A' hle2
        have hWr : W ≤ r := by omega
        have hvmr : vm ≤ r := by
          by_cases hcsa : cs ≤ alpha
          · have := F1 hcsa
            omega
          · have hcsb2 : cs < beta := by omega
            have := F3 (by omega) hcsb2
            omega
        have hup : r ≤ max W vm := by
          rcases lt_or_le (max alpha sc') r with hgt | hle2
          · have hreq := C' hgt h2
            rcases hVrec with h | h
            · rw [h] at hreq
              rcases max_choice W cs with hx | hx
              · omega
              · have hcsval : r = cs := by omega
                have := F3 (by omega) (by omega)
                omega
            · rw [h] at hreq
              omega
          · have hA := A' hle2
            have hscr : sc' = r := by omega
            have hcseq : r = cs := by
              rcases hsc_cases with ⟨h0, h⟩ | ⟨h0, h⟩ <;> omega
            have := F3 (by omega) (by omega)
            omega
        omega
      

/-- Fail-soft correctness of `negascout` against the exhaustive `negamax`:
with any window `alpha < beta` wide enough to dominate every reachable score,
a result at most `alpha` is an upper bound on the exhaustive value, a result
at least `beta` is a lower bound, and a result strictly inside the window is
the exact exhaustive value.  Pruning and null-window re-searches therefore
never change an in-window result. -/
theorem ns_main : ∀ (d : Nat) (g : OthelloGame) (alpha beta c : Int), WellFormed g →
    (c = 1 ∨ c = -1) → alpha < beta → -INF ≤ alpha → beta ≤ INF →
    (((negascout g d alpha beta c).1 ≤ alpha →
        negamax g d c ≤ (negascout g d alpha beta c).1) ∧
      (beta ≤ (negascout g d alpha beta c).1 →
        (negascout g d alpha beta c).1 ≤ negamax g d c) ∧
      (alpha < (negascout g d alpha beta c).1 → (negascout g d alpha beta c).1 < beta →
        (negascout g d alpha beta c).1 = negamax g d c)) := by
  intro d
  induction d with
  | zero =>
    intro g alpha beta c hwf hc hab hai hbi
    simp only [negascout, negamax]
    exact ⟨fun _ => le_refl _, fun _ => le_refl _, fun _ _ => trivial⟩
  | succ n ih =>
    intro g alpha beta c hwf hc hab hai hbi
    by_cases hterm : is_game_over g = true
    · simp only [negascout, negamax, hterm, if_true]
      exact ⟨fun _ => le_refl _, fun _ => le_refl _, fun _ _ => trivial⟩
    · have htf : is_game_over g = false := by simpa using hterm
      cases hmv : get_valid_moves g with
      | nil =>
        simp only [negascout, negamax, htf, Bool.false_eq_true, if_false, hmv]
        obtain ⟨hA, hB, hC⟩ := ih g (-beta) (-alpha) (-c) hwf (neg_color c hc)
          (by omega) (by omega) (by omega)
        refine ⟨fun h => ?_, fun h => ?_, fun h1 h2 => ?_⟩
        · have := hB (by omega)
          omega
        · have := hA (by omega)
          omega
        · have := hC (by omega) (by omega)
          omega
      | cons m ms =>
        simp only [negascout, negamax, htf, Bool.false_eq_true, if_false, hmv]
        obtain ⟨D0, A0, B0, C0⟩ := ns_fold_tri n ih (m :: ms) beta c g true (-INF) alpha
          none hwf hc hab hai hbi (by omega)
        have hmap : (m :: ms).map (nm_val n c g) = (m :: ms).map
            (fun mv => -(negamax (apply_move (clone g) (some mv)) n (-c))) := rfl
        rw [hmap] at A0 B0 C0
        exact ⟨A0, B0, C0⟩

/-- Bounds on the per-move score of the loop: like every `negascout` result it
lies within the range of the evaluator. -/
theorem ns_cs_bounds (n : Nat) (beta c : Int) (g : OthelloGame) (m : Int) (first : Bool)
    (alpha : Int) (hwf : WellFormed g) (hc : c = 1 ∨ c = -1) :
    -64 ≤ ns_cs n beta c g m first alpha ∧ ns_cs n beta c g m first alpha ≤ 64 := by
  have hwfc := wf_child g hwf m
  have hcc := neg_color c hc
  have h1 := ns_bounds n (apply_move (clone g) (some m)) (-beta) (-alpha) (-c) hwfc hcc
  have h2 := ns_bounds n (apply_move (clone g) (some m)) (-alpha - 1) (-alpha) (-c) hwfc hcc
  have h3 := ns_bounds n (apply_move (clone g) (some m)) (-beta)
    (-(-(negascout (apply_move (clone g) (some m)) n (-alpha - 1) (-alpha) (-c)).1)) (-c)
    hwfc hcc
  cases first with
  | true =>
    simp only [ns_cs, if_pos rfl, if_true]
    omega
  | false =>
    simp only [ns_cs, Bool.false_eq_true, if_false]
    by_cases hcond : alpha < -(negascout (apply_move (clone g) (some m)) n
        (-alpha - 1) (-alpha) (-c)).1 ∧
        -(negascout (apply_move (clone g) (some m)) n (-alpha - 1) (-alpha) (-c)).1 < beta
    · rw [if_pos hcond]
      omega
    · rw [if_neg hcond]
      omega


theorem not_over_of_moves (g : OthelloGame) (hmv : get_valid_moves g ≠ []) :
    is_game_over g = false := by
  rw [is_game_over]
  by_cases hfull : boardIdx.all (fun i => g.board i ≠ 0) = true
  · exfalso
    apply hmv
    rw [get_valid_moves, List.filter_eq_nil_iff]
    intro i hi
    have hne : g.board i ≠ 0 := by simpa using List.all_eq_true.mp hfull i hi
    simp [is_valid_move, hne]
  · rw [if_neg hfull]
    by_cases hp : 2 ≤ g.turns_passed
    · rw [if_pos hp]
    · rw [if_neg hp]
      cases h : get_valid_moves g with
      | nil => exact absurd h hmv
      | cons a t => rfl

/-- With the full root window the move loop of `negascout` computes exactly
the naive strict-improvement fold of the exhaustive child values: at the root
every null-window probe that fails high is re-searched to the exact value, so
both the running score and the recorded best move agree with the unpruned
search. -/
theorem ns_root_fold (n : Nat) (g : OthelloGame) (hwf : WellFormed g) :
    ∀ (l : List Int) (first : Bool) (score : Int) (best : Option Int),
      -INF ≤ score → score ≤ 64 →
      ns_fold n INF 1 g l first score score best =
        l.foldl (fun acc mv =>
          if nm_val n 1 g mv > acc.1 then (nm_val n 1 g mv, some mv) else acc)
          (score, best) := by
  have hINF : (64 : Int) < INF := by rw [INF]; omega
  intro l
  induction l with
  | nil =>
    intro first score best _ _
    simp [ns_fold]
  | cons m rest ihl =>
    intro first score best hsl hsu
    obtain ⟨F1, F2, F3⟩ := ns_cs_tri n (ns_main n) INF 1 g m first score hwf (Or.inl rfl)
      (by omega) hsl (le_refl INF)
    have hcsb := ns_cs_bounds n INF 1 g m first score hwf (Or.inl rfl)
    have hvb : -64 ≤ nm_val n 1 g m ∧ nm_val n 1 g m ≤ 64 := by
      have := negamax_bounds n (apply_move (clone g) (some m)) (-1)
        (wf_child g hwf m) (Or.inr rfl)
      rw [nm_val]
      omega
    simp only [ns_fold, List.foldl_cons]
    set cs := ns_cs n INF 1 g m first score with hcsdef
    set vm := nm_val n 1 g m with hvmdef
    by_cases hup : cs > score
    · have hexact : cs = vm := F3 hup (by omega)
      have hvup : vm > score := by omega
      rw [if_pos hup]
      have hmax : max score cs = cs := max_eq_right (by omega)
      rw [if_pos hup, hmax, if_neg (by omega : ¬ INF ≤ cs)]
      rw [ihl false cs (some m) (by omega) (by omega)]
      rw [show (if vm > (score, best).1 then (vm, some m) else (score, best)) = (vm, some m)
        from if_pos hvup]
      rw [hexact]
    · have hvdown : ¬ vm > score := by
        intro hv
        have := F1 (by omega)
        omega
      rw [if_neg hup]
      have hmax : max score score = score := max_self score
      rw [if_neg hup, hmax, if_neg (by omega : ¬ INF ≤ score)]
      rw [ihl false score best hsl hsu]
      rw [show (if vm > (score, best).1 then (vm, some m) else (score, best)) = (score, best)
        from if_neg hvdown]


theorem naive_fold_some (n : Nat) (g : OthelloGame) :
    ∀ (l : List Int) (acc : Int × Option Int) (mv0 : Int), acc.2 = some mv0 →
      ∃ mv, (l.foldl (fun acc mv =>
        if nm_val n 1 g mv > acc.1 then (nm_val n 1 g mv, some mv) else acc) acc).2 = some mv := by
  intro l
  induction l with
  | nil =>
    intro acc mv0 h
    exact ⟨mv0, h⟩
  | cons a t ih =>
    intro acc mv0 h
    simp only [List.foldl_cons]
    by_cases hc : nm_val n 1 g a > acc.1
    · rw [if_pos hc]
      exact ih _ a rfl
    · rw [if_neg hc]
      exact ih _ mv0 h

/-- C2: on a well-formed state with at least one legal move, the NegaScout
root search returns exactly the move and score of the exhaustive (unpruned)
fixed-depth negamax search with the same evaluator, for every depth limit;
for a positive depth the returned move exists.  Alpha-beta pruning and the
null-window re-searches never change the returned value. -/
theorem c2_negascout_equals_minimax (g : OthelloGame) (hwf : WellFormed g)
    (hmv : get_valid_moves g ≠ []) (D : Nat) :
    negascout g D (-INF) INF 1 = negamax_root g D ∧
      (1 ≤ D → ∃ mv, (negascout g D (-INF) INF 1).2 = some mv) := by
  have hINF : (64 : Int) < INF := by rw [INF]; omega
  cases D with
  | zero =>
    constructor
    · simp only [negascout, negamax_root, one_mul]
    · intro h
      exact absurd h (by omega)
  | succ n =>
    have htf := not_over_of_moves g hmv
    cases hmvs : get_valid_moves g with
    | nil => exact absurd hmvs hmv
    | cons m ms =>
      have hlhs : negascout g (n + 1) (-INF) INF 1 =
          ns_fold n INF 1 g (m :: ms) true (-INF) (-INF) none := by
        simp only [negascout, htf, Bool.false_eq_true, if_false, hmvs]
      have hroot := ns_root_fold n g hwf (m :: ms) true (-INF) none (le_refl _) (by omega)
      have hrhs : negamax_root g (n + 1) = (m :: ms).foldl (fun acc mv =>
          if nm_val n 1 g mv > acc.1 then (nm_val n 1 g mv, some mv) else acc)
          (-INF, none) := by
        simp only [negamax_root, htf, Bool.false_eq_true, if_false, hmvs]
        rfl
      constructor
      · rw [hlhs, hroot, hrhs]
      · intro _
        rw [hlhs, hroot]
        have hvb : -64 ≤ nm_val n 1 g m := by
          have := negamax_bounds n (apply_move (clone g) (some m)) (-1)
            (wf_child g hwf m) (Or.inr rfl)
          rw [nm_val]
          omega
        simp only [List.foldl_cons]
        rw [show (if nm_val n 1 g m > ((-INF : Int), (none : Option Int)).1
            then (nm_val n 1 g m, some m) else ((-INF : Int), (none : Option Int))) =
            (nm_val n 1 g m, some m)
          from if_pos (by show nm_val n 1 g m > -INF; omega)]
        exact naive_fold_some n g ms _ m rfl


/-- C1: evaluation of `is_game_over` at a reachable failing input.  After the
nine-move wipe-out line `wipeSeq` and the two forced passes, both players have
passed consecutively (`turns_passed = 2`) and neither side has a legal move,
yet `is_game_over()` returns `False`: the `turns_passed >= 2` branch of the
source returns `False` exactly where the specified semantics requires `True`.
Moreover already before the passes (`turns_passed = 0`, pass streak below 2,
board not full) the code classifies the position as terminal.  The claimed
equivalence therefore fails in both directions on reachable states. -/
theorem c1_is_game_over_failing_input :
    is_game_over wipedPassed = false ∧ get_valid_moves wipedPassed = [] ∧
      get_valid_moves (pass_turn wipedPassed) = [] ∧ wipedPassed.turns_passed = 2 ∧
      is_game_over afterWipe = true ∧ afterWipe.turns_passed = 0 ∧
      get_valid_moves afterWipe = [] := by decide

/-- C4: evaluation of `apply_move` at concrete invalid moves (occupied cell
27, non-capturing empty cell 0, absent move): the state — cells, current
player, last move and pass streak — is left completely unchanged, and the
only reporting is the printed diagnostic modelled by
`apply_move_prints_invalid`; the Python function returns `None` on both
branches, so no invalid-move condition reaches the caller. -/
theorem c4_invalid_move_keeps_state :
    apply_move initGame (some 27) = initGame ∧
      apply_move initGame (some 0) = initGame ∧
      apply_move initGame none = initGame ∧
      apply_move_prints_invalid initGame (some 27) = true ∧
      apply_move_prints_invalid initGame (some 0) = true ∧
      apply_move_prints_invalid initGame none = true :=
  ⟨rfl, rfl, rfl, by decide, by decide, by decide⟩

/-- C8: the fresh board has exactly 4 occupied cells — two per player, White
on 27 and 36, Black on 28 and 35 (the central diamond) — and the valid moves
of the starting player (Black) are exactly the four classic opening cells
19, 26, 37 and 44. -/
theorem c8_opening_invariant :
    ((List.range 64).filter (fun i => init_board (i : Int) ≠ 0)).length = 4 ∧
      discCount initGame 1 = 2 ∧ discCount initGame (-1) = 2 ∧
      init_board 27 = -1 ∧ init_board 36 = -1 ∧ init_board 28 = 1 ∧ init_board 35 = 1 ∧
      initGame.current_player = 1 ∧
      get_valid_moves initGame = [19, 26, 37, 44] := by decide

/-- C10: `clone` copies `cells` and `currentPlayer` from the original but
always resets `lastMove` to none and `passStreak` to 0, whatever values the
original held (the fresh constructor sets them and `clone` never copies
them). -/
theorem c10_clone_field_semantics (g : OthelloGame) :
    (clone g).board = g.board ∧ (clone g).current_player = g.current_player ∧
      (clone g).last_move = none ∧ (clone g).turns_passed = 0 :=
  ⟨rfl, rfl, rfl, rfl⟩

theorem c2_negascout_equals_minimax_witness :
    WellFormed initGame ∧ get_valid_moves initGame ≠ [] ∧
      (negascout initGame 2 (-INF) INF 1 = negamax_root initGame 2 ∧
        (1 ≤ 2 → ∃ mv, (negascout initGame 2 (-INF) INF 1).2 = some mv)) :=
  ⟨by decide, by decide,
    c2_negascout_equals_minimax initGame (by decide) (by decide) 2⟩

theorem c3_valid_iff_gains_two_witness :
    WellFormed initGame ∧ (0 : Int) ≤ 19 ∧ (19 : Int) < 64 ∧
      (is_valid_move initGame 19 = true ↔
        discCount initGame initGame.current_player + 2 ≤
          discCount (apply_move initGame (some 19)) initGame.current_player) :=
  ⟨by decide, by decide, by decide,
    c3_valid_iff_gains_two initGame (by decide) 19 (by decide) (by decide)⟩


theorem child_tp0 (g : OthelloGame) (m : Int) :
    (apply_move (clone g) (some m)).turns_passed = 0 := by
  by_cases hv : is_valid_move (clone g) m = true
  · simp only [apply_move, hv, if_true]
  · have hvf : is_valid_move (clone g) m = false := by simpa using hv
    simp only [apply_move, hvf, Bool.false_eq_true, if_false]
    rfl

theorem moves_ne_of_not_over (g : OthelloGame) (htp : g.turns_passed = 0)
    (hgo : is_game_over g = false) : get_valid_moves g ≠ [] := by
  intro hnil
  rw [is_game_over] at hgo
  by_cases hfull : boardIdx.all (fun i => g.board i ≠ 0) = true
  · rw [if_pos hfull, hnil] at hgo
    exact absurd hgo (by decide)
  · rw [if_neg hfull, if_neg (by omega)] at hgo
    rw [hnil] at hgo
    exact absurd hgo (by decide)

theorem sum_visits_set (l : List MCTree) :
    ∀ (i : Nat) (c' : MCTree) (h : i < l.length),
      sumVisits (l.set i c') = sumVisits l - (l.get ⟨i, h⟩).visits + c'.visits := by
  induction l with
  | nil =>
    intro i c' h
    exact absurd h (by simp)
  | cons a t ih =>
    intro i c' h
    cases i with
    | zero =>
      simp only [List.set, sumVisits, List.map_cons, List.sum_cons, List.get]
      omega
    | succ n =>
      have hn : n < t.length := by
        simpa using h
      simp only [List.set, sumVisits, List.map_cons, List.sum_cons, List.get]
      have := ih n c' hn
      simp only [sumVisits] at this
      omega

theorem sum_visits_append (l : List MCTree) (c : MCTree) :
    sumVisits (l ++ [c]) = sumVisits l + c.visits := by
  simp [sumVisits]

/-- Progress and preservation for one MCTS iteration on a well-formed tree:
the iteration cannot hit the childless-selection crash, it adds exactly one
visit to the node, keeps the state and well-formedness, and — when the node
is not terminal — routes that one visit through exactly one child, so the
children's visit total grows by exactly one. -/
theorem mctsIterate_good (sel : Int → List MCTree → Nat) (sim : OthelloGame → Int) :
    ∀ (t : MCTree), GoodTree t →
      ∃ t' r, mctsIterate sel sim t = some (t', r) ∧ GoodTree t' ∧
        t'.state = t.state ∧ t'.visits = t.visits + 1 ∧
        (is_game_over t.state = false →
          sumVisits t'.children = sumVisits t.children + 1) := by
  intro t ht
  induction ht with
  | @mk st v w u ch hcond hch ih =>
    by_cases hterm : is_game_over st = true
    · refine ⟨.mk st (v + 1) (w + sim st) u ch, sim st, ?_, ?_, rfl, rfl, ?_⟩
      · simp only [mctsIterate, hterm, if_true]
      · exact GoodTree.mk hcond hch
      · intro hko
        rw [MCTree.state] at hko
        rw [hterm] at hko
        cases hko
    · have htf : is_game_over st = false := by simpa using hterm
      by_cases hu : u = []
      · -- fully expanded: descend into the selected child
        have hchne : ch ≠ [] := by
          rcases hcond htf with h | h
          · exact absurd hu h
          · exact h
        have hchne' : ¬ch.isEmpty = true := by
          intro hempty
          exact hchne (List.isEmpty_iff.mp hempty)
        have hlt : sel v ch % ch.length < ch.length :=
          Nat.mod_lt _ (List.length_pos.mpr hchne)
        have hcmem : ch.get ⟨sel v ch % ch.length, hlt⟩ ∈ ch := List.get_mem ch _ hlt
        obtain ⟨c', r, hit, hgood, hst, hvis, _⟩ := ih _ hcmem
        refine ⟨.mk st (v + 1) (w - r) u (ch.set (sel v ch % ch.length) c'), -r, ?_, ?_,
          rfl, rfl, ?_⟩
        · simp only [mctsIterate, htf, Bool.false_eq_true, if_false, dif_pos hu,
            dif_neg hchne']
          rw [hit]
        · refine GoodTree.mk ?_ ?_
          · intro _
            right
            intro hset
            have hlen0 := congrArg List.length hset
            rw [List.length_set] at hlen0
            simp only [List.length_nil] at hlen0
            exact hchne (List.length_eq_zero.mp hlen0)
          · intro c hc
            rcases List.mem_or_eq_of_mem_set hc with hc2 | rfl
            · exact hch c hc2
            · exact hgood
        · intro _
          rw [MCTree.children, MCTree.children]
          rw [sum_visits_set ch _ c' hlt]
          omega
      · -- not fully expanded: expand the last untried move
        refine ⟨.mk st (v + 1) (w - sim (apply_move (clone st) (some (u.getLast hu))))
            u.dropLast
            (ch ++ [.mk (apply_move (clone st) (some (u.getLast hu))) 1
              (sim (apply_move (clone st) (some (u.getLast hu))))
              (get_valid_moves (apply_move (clone st) (some (u.getLast hu)))) []]),
          -(sim (apply_move (clone st) (some (u.getLast hu)))), ?_, ?_, rfl, rfl, ?_⟩
        · simp only [mctsIterate, htf, Bool.false_eq_true, if_false, dif_neg hu]
        · refine GoodTree.mk ?_ ?_
          · intro _
            right
            simp
          · intro c hc
            rcases List.mem_append.mp hc with hc2 | hc2
            · exact hch c hc2
            · have hceq : c = .mk (apply_move (clone st) (some (u.getLast hu))) 1
                  (sim (apply_move (clone st) (some (u.getLast hu))))
                  (get_valid_moves (apply_move (clone st) (some (u.getLast hu)))) [] := by
                simpa using hc2
              rw [hceq]
              refine GoodTree.mk ?_ (by intro c2 hc2b; cases hc2b)
              intro hngo
              left
              exact moves_ne_of_not_over _ (child_tp0 st (u.getLast hu)) hngo
        · intro _
          rw [MCTree.children, MCTree.children, sum_visits_append]
          rfl

/-- Iterating `n` times from a well-formed non-terminal node succeeds and
adds exactly `n` to the children's visit total. -/
theorem mctsRun_sum (sels : Nat → Int → List MCTree → Nat)
    (sims : Nat → OthelloGame → Int) :
    ∀ (n : Nat) (t : MCTree), GoodTree t → is_game_over t.state = false →
      ∃ t', mctsRun sels sims n t = some t' ∧
        sumVisits t'.children = sumVisits t.children + n ∧
        GoodTree t' ∧ t'.state = t.state := by
  intro n
  induction n with
  | zero =>
    intro t ht hgo
    exact ⟨t, rfl, by simp, ht, rfl⟩
  | succ k ih =>
    intro t ht hgo
    obtain ⟨t1, r, hit, hg1, hst1, _, hsum1⟩ := mctsIterate_good (sels k) (sims k) t ht
    obtain ⟨t', hrun, hsum, hg', hst'⟩ := ih t1 hg1 (by rw [hst1]; exact hgo)
    refine ⟨t', ?_, ?_, hg', by rw [hst', hst1]⟩
    · simp only [mctsRun]
      rw [hit]
      exact hrun
    · rw [hsum, hsum1 hgo]
      push_cast
      omega


/-- C5: from a non-terminal root with at least one legal move, `N` iterations
of the MCTS loop (no time limit) run to completion and the visit counters of
the root's children sum to exactly `N`: every iteration expands or descends
into exactly one root child and backpropagates one visit through it.  The
statement quantifies over every selection-function stream and every
simulation-result stream, covering the floating-point UCB1 argmax and the
random playouts of the source. -/
theorem c5_mcts_root_visits (g : OthelloGame)
    (sels : Nat → Int → List MCTree → Nat) (sims : Nat → OthelloGame → Int)
    (N : Nat) (hgo : is_game_over g = false) (hmv : get_valid_moves g ≠ [])
    (hN : 1 ≤ N) :
    ∃ t', mctsRun sels sims N (freshNode g) = some t' ∧
      sumVisits t'.children = N := by
  have hgood : GoodTree (freshNode g) :=
    GoodTree.mk (fun _ => Or.inl hmv) (fun c hc => absurd hc (List.not_mem_nil c))
  obtain ⟨t', hrun, hsum, _, _⟩ := mctsRun_sum sels sims N (freshNode g) hgood hgo
  refine ⟨t', hrun, ?_⟩
  rw [hsum]
  simp [freshNode, sumVisits, MCTree.children]

theorem c5_mcts_root_visits_witness :
    is_game_over initGame = false ∧ get_valid_moves initGame ≠ [] ∧ 1 ≤ 1 ∧
      (∃ t', mctsRun (fun _ _ _ => 0) (fun _ _ => 0) 1 (freshNode initGame) = some t' ∧
        sumVisits t'.children = 1) :=
  ⟨by decide, by decide, by decide,
    c5_mcts_root_visits initGame (fun _ _ _ => 0) (fun _ _ => 0) 1 (by decide) (by decide)
      (by decide)⟩

/-- C7: evaluation at the failing input the claim names: an iteration limit
of 0 on the initial position (non-terminal, with legal moves) expands no
children, `best_child(0)` prints a warning and returns `None`, and `search`
then evaluates `None.state.last_move` — it dereferences the absent best
child, raising AttributeError (modelled by `none`) instead of surfacing a
search-exhausted condition. -/
theorem c7_zero_iterations_dereferences_none :
    mctsSearch (fun _ _ _ => 0) (fun _ _ => 0) 0 initGame = none ∧
      is_game_over initGame = false ∧ get_valid_moves initGame ≠ [] :=
  ⟨rfl, by decide, by decide⟩


theorem can_flip_aux_zero (b : Int → Int) (dx dy : Int) :
    ∀ (fuel : Nat) (nx ny : Int) (flipped : Bool),
      can_flip_aux b 0 dx dy fuel nx ny flipped = false := by
  intro fuel
  induction fuel with
  | zero => intro nx ny flipped; rfl
  | succ n ih =>
    intro nx ny flipped
    simp only [can_flip_aux]
    by_cases hib : inb nx ny
    · rw [if_pos hib]
      by_cases hc : b (nx * 8 + ny) = -0
      · rw [if_pos hc]
        exact ih _ _ _
      · rw [if_neg hc, if_neg (by simpa using hc)]
    · rw [if_neg hib]

theorem valid_player_ne_zero (g : OthelloGame) (m : Int)
    (hv : is_valid_move g m = true) : g.current_player ≠ 0 := by
  intro hp
  rw [is_valid_move] at hv
  by_cases hr : 0 ≤ m ∧ m < 64
  · rw [if_pos hr] at hv
    by_cases hb : g.board m ≠ 0
    · rw [if_pos hb] at hv
      cases hv
    · rw [if_neg hb] at hv
      rcases List.any_eq_true.mp hv with ⟨d, _, hcf⟩
      rw [can_flip, hp, can_flip_aux_zero] at hcf
      cases hcf
  · rw [if_neg hr] at hv
    cases hv

theorem valid_in_range (g : OthelloGame) (m : Int)
    (hv : is_valid_move g m = true) : 0 ≤ m ∧ m < 64 := by
  by_contra hr
  rw [is_valid_move, if_neg hr] at hv
  cases hv

theorem apply_tp0 (g : OthelloGame) (m : Int) (hv : is_valid_move g m = true) :
    (apply_move g (some m)).turns_passed = 0 := by
  simp only [apply_move, hv, if_true]

/-- Applying a valid move fills at least one empty cell: the number of empty
cells strictly decreases.  This is the loop variant of the random playout. -/
theorem zeros_decrease (g : OthelloGame) (m : Int) (hv : is_valid_move g m = true) :
    discCount (apply_move g (some m)) 0 < discCount g 0 := by
  have hemp : g.board m = 0 := valid_board_empty g m hv
  have hpne : g.current_player ≠ 0 := valid_player_ne_zero g m hv
  have hr := valid_in_range g m hv
  have happ : apply_move g (some m) =
      ⟨(flip_discs ⟨Function.update g.board m g.current_player, g.current_player,
            some m, g.turns_passed⟩ m g.current_player).foldl
          (fun b j => Function.update b j g.current_player)
          (Function.update g.board m g.current_player),
        -g.current_player, some m, 0⟩ := by
    simp [apply_move, hv]
  have hcellprops := flip_discs_cells
    ⟨Function.update g.board m g.current_player, g.current_player,
      some m, g.turns_passed⟩ m g.current_player
  have hnotm : ∀ j ∈ flip_discs ⟨Function.update g.board m g.current_player,
      g.current_player, some m, g.turns_passed⟩ m g.current_player, j ≠ m := by
    intro j hj heq
    have := (hcellprops j hj).2.2.2
    rw [heq] at this
    exact this (Function.update_same m g.current_player g.board)
  have hdc : discCount (apply_move g (some m)) 0 =
      ((Finset.Icc (0 : Int) 63).filter (fun j =>
        (if j ∈ flip_discs ⟨Function.update g.board m g.current_player,
            g.current_player, some m, g.turns_passed⟩ m g.current_player
          then g.current_player
          else Function.update g.board m g.current_player j) = 0)).card := by
    unfold discCount
    congr 1
    apply Finset.filter_congr
    intro j _
    rw [happ]
    dsimp only
    rw [foldl_update_apply]
  rw [hdc]
  apply Finset.card_lt_card
  constructor
  · intro j hj
    simp only [Finset.mem_filter, Finset.mem_Icc] at hj ⊢
    refine ⟨hj.1, ?_⟩
    have hb := hj.2
    by_cases hjf : j ∈ flip_discs ⟨Function.update g.board m g.current_player,
        g.current_player, some m, g.turns_passed⟩ m g.current_player
    · rw [if_pos hjf] at hb
      exact absurd hb hpne
    · rw [if_neg hjf, Function.update_apply] at hb
      by_cases hjm : j = m
      · rw [if_pos hjm] at hb
        exact absurd hb hpne
      · rw [if_neg hjm] at hb
        exact hb
  · intro hsub
    have hm1 : m ∈ (Finset.Icc (0 : Int) 63).filter (fun j => g.board j = 0) := by
      simp only [Finset.mem_filter, Finset.mem_Icc]
      exact ⟨⟨hr.1, by omega⟩, hemp⟩
    have hm2 := hsub hm1
    simp only [Finset.mem_filter, Finset.mem_Icc] at hm2
    have hb := hm2.2
    rw [if_neg (fun hmem => hnotm _ hmem rfl), Function.update_same] at hb
    exact hpne hb

theorem mem_valid_moves (g : OthelloGame) (m : Int) (hm : m ∈ get_valid_moves g) :
    is_valid_move g m = true := by
  rw [get_valid_moves] at hm
  exact List.of_mem_filter hm

/-- Termination of the playout loop with the number of empty cells as
variant: from any state with `turns_passed = 0` and at most `n` empty cells,
`n + 1` loop steps reach a terminal state. -/
theorem simulateAux_terminates (choose : Nat → Nat) :
    ∀ (n : Nat) (k : Nat) (g : OthelloGame), g.turns_passed = 0 →
      discCount g 0 ≤ n →
      ∃ t, simulateAux choose (n + 1) k g = some t ∧ is_game_over t = true := by
  intro n
  induction n with
  | zero =>
    intro k g htp hz
    by_cases hgo : is_game_over g = true
    · exact ⟨g, by simp only [simulateAux, hgo, if_true], hgo⟩
    · exfalso
      have htf : is_game_over g = false := by simpa using hgo
      have hne := moves_ne_of_not_over g htp htf
      cases hm : get_valid_moves g with
      | nil => exact hne hm
      | cons m ms =>
        have hval := mem_valid_moves g m (by rw [hm]; exact List.mem_cons_self m ms)
        have hemp : g.board m = 0 := valid_board_empty g m hval
        have hr := valid_in_range g m hval
        have : m ∈ (Finset.Icc (0 : Int) 63).filter (fun j => g.board j = 0) := by
          simp only [Finset.mem_filter, Finset.mem_Icc]
          exact ⟨⟨hr.1, by omega⟩, hemp⟩
        have hpos : 0 < discCount g 0 := Finset.card_pos.mpr ⟨m, this⟩
        omega
  | succ n ih =>
    intro k g htp hz
    by_cases hgo : is_game_over g = true
    · exact ⟨g, by simp only [simulateAux, hgo, if_true], hgo⟩
    · have htf : is_game_over g = false := by simpa using hgo
      have hne := moves_ne_of_not_over g htp htf
      cases hm : get_valid_moves g with
      | nil => exact absurd hm hne
      | cons m ms =>
        have hchosen : is_valid_move g ((m :: ms).get
            ⟨choose k % (m :: ms).length, Nat.mod_lt _ (Nat.succ_pos ms.length)⟩) = true := by
          apply mem_valid_moves
          rw [hm]
          exact List.get_mem (m :: ms) _ _
        obtain ⟨t, hsim, hterm⟩ := ih (k + 1)
          (apply_move g (some ((m :: ms).get
            ⟨choose k % (m :: ms).length, Nat.mod_lt _ (Nat.succ_pos ms.length)⟩)))
          (apply_tp0 g _ hchosen)
          (by have := zeros_decrease g _ hchosen; omega)
        refine ⟨t, ?_, hterm⟩
        simp only [simulateAux, htf, Bool.false_eq_true, if_false, hm]
        exact hsim

/-- C9: for every state and every random draw sequence, the random playout
of `MCTS.simulate` terminates: starting from the clone of the state (whose
pass counter is 0, so a moveless state is terminal) it reaches a state where
`is_game_over()` holds within the fuel bound, and the simulation returns
that terminal state's winner. -/
theorem c9_simulate_terminates (g : OthelloGame) (choose : Nat → Nat) :
    ∃ t, simulateAux choose 65 0 (clone g) = some t ∧ is_game_over t = true ∧
      simulateModel g choose = some (get_winner t) := by
  have hz : discCount (clone g) 0 ≤ 64 := by
    have h1 := Finset.card_filter_le (Finset.Icc (0 : Int) 63)
      (fun j => (clone g).board j = 0)
    have h2 : (Finset.Icc (0 : Int) 63).card = 64 := by decide
    unfold discCount
    omega
  obtain ⟨t, hsim, hterm⟩ := simulateAux_terminates choose 64 0 (clone g) rfl hz
  refine ⟨t, hsim, hterm, ?_⟩
  rw [simulateModel, hsim]
  rfl


theorem getD_set_ne (b : Int → Int) (d : Int → Int) :
    ∀ (s : Store) (i j : Nat), j ≠ i →
      (s.set i b).getD j d = s.getD j d := by
  intro s
  induction s with
  | nil => intro i j _; rfl
  | cons a t ih =>
    intro i j hne
    cases i with
    | zero =>
      cases j with
      | zero => exact absurd rfl hne
      | succ k => rfl
    | succ i' =>
      cases j with
      | zero => rfl
      | succ k => exact ih i' k (fun h => hne (by rw [h]))

/-- Frame property of the heap operations: running any operation sequence on
a game touches only that game's own board cell in the store, and the game's
board reference never changes. -/
theorem runOps_frame (d : Int → Int) (ops : List HOp) :
    ∀ (s : Store) (h : HGame) (j : Nat), j ≠ h.ref →
      (runOps ops (s, h)).1.getD j d = s.getD j d ∧
        (runOps ops (s, h)).2.ref = h.ref := by
  induction ops with
  | nil => intro s h j _; exact ⟨rfl, rfl⟩
  | cons op rest ih =>
    intro s h j hj
    cases op with
    | moveOp m =>
      simp only [runOps, hApplyMove]
      have := ih (s.set h.ref (apply_move (readGame s h) m).board)
        ⟨h.ref, (apply_move (readGame s h) m).current_player,
          (apply_move (readGame s h) m).last_move,
          (apply_move (readGame s h) m).turns_passed⟩ j hj
      rw [this.1, this.2]
      exact ⟨getD_set_ne _ d s h.ref j hj, rfl⟩
    | passOp =>
      simp only [runOps, hPass]
      exact ih s ⟨h.ref, -h.current_player, h.last_move, h.turns_passed + 1⟩ j hj

/-- C6: clone independence.  For every store, every game whose board lives in
the store, and every sequence of `applyMove` and `pass` operations performed
on the clone, the original game's observable state — its cells (read from
the final store), `currentPlayer` and `lastMove` — is exactly what it was
before: the clone's board is a fresh copy, never an alias, and the
operations write only through the clone's own reference. -/
theorem c6_clone_independent (s : Store) (g : HGame) (ops : List HOp)
    (href : g.ref < s.length) :
    readGame (runOps ops (hClone s g)).1 g = readGame s g := by
  have h2 : (hClone s g).2.ref = s.length := rfl
  have hne : g.ref ≠ (hClone s g).2.ref := by
    rw [h2]
    omega
  have hframe := runOps_frame (fun _ => 0) ops (hClone s g).1 (hClone s g).2 g.ref hne
  have heta : ((hClone s g).1, (hClone s g).2) = hClone s g := rfl
  rw [heta] at hframe
  rw [readGame, readGame]
  congr 1
  rw [hframe.1]
  exact List.getD_append _ _ _ _ href

theorem c6_clone_independent_witness :
    (⟨0, 1, none, 0⟩ : HGame).ref < ([init_board] : Store).length ∧
      readGame (runOps [HOp.moveOp (some 44), HOp.passOp]
          (hClone [init_board] ⟨0, 1, none, 0⟩)).1 ⟨0, 1, none, 0⟩ =
        readGame [init_board] ⟨0, 1, none, 0⟩ :=
  ⟨by decide, c6_clone_independent [init_board] ⟨0, 1, none, 0⟩
    [HOp.moveOp (some 44), HOp.passOp] (by decide)⟩

end Osero
